import Mathlib

/-!
# cos-golang-sdk: request signing, path escaping and slice upload

A shallow embedding of `cos.go` (package `cos`) and the properties of its
signer, its path escaping and its resumable slice upload.

Conventions of the embedding:

* a Go `string` / `[]byte` is a list of bytes (`GoString = List Byte`,
  `Byte = Fin 256`); `str "..."` writes an ASCII literal;
* Go `int` is taken to be 64 bits wide; `int64` values are `Int`, wrapped
  explicitly where a sum of the source can leave the range;
* the Go standard library functions the source calls (`strings.Trim`,
  `url.QueryEscape`, `strings.Replacer`, `strings.Join`, `fmt.Sprintf`,
  `sha1`, `hmac`, `base64`, `hex`, `strconv`, `(*os.File).Read`) are embedded
  from their documented behaviour, next to the source functions that use them;
* the effects of the source are parameters: the clock and the random source
  of `Bucket.sign`, and for `UploadSlice` the local file (`LocalFile`) and the
  method `File.upload` (`Server`); a run of `UploadSlice` records the calls it
  makes.
-/

namespace Cos

/-! # Part I: the embedding -/

/-! ## Bytes and strings -/

/-- One byte. -/
abbrev Byte := Fin 256

/-- A Go string (or byte slice): a sequence of bytes. -/
abbrev GoString := List Byte

/-- The bytes of an ASCII literal. -/
def str (s : String) : GoString := s.toList.map (fun c => Fin.ofNat c.toNat)

/-- The byte of an ASCII character. -/
def chr (c : Char) : Byte := Fin.ofNat c.toNat

/-! ## `strings.Trim`, `url.QueryEscape`, `strings.Replacer`, `strings.Join` -/

/-- Go `strings.Trim(s, cutset)` for an ASCII cutset: all leading and trailing
bytes contained in `cutset` are removed. -/
def Trim (s cutset : GoString) : GoString :=
  (s.dropWhile (fun c => decide (c ∈ cutset))).rdropWhile (fun c => decide (c ∈ cutset))

/-- Go `net/url.shouldEscape(c, encodeQueryComponent)`: only the unreserved
characters (alphanumerics and `-`, `_`, `.`, `~`) are left alone. -/
def shouldEscape (c : Byte) : Bool :=
  if (chr 'a' ≤ c ∧ c ≤ chr 'z') ∨ (chr 'A' ≤ c ∧ c ≤ chr 'Z') ∨ (chr '0' ≤ c ∧ c ≤ chr '9') then
    false
  else if c = chr '-' ∨ c = chr '_' ∨ c = chr '.' ∨ c = chr '~' then
    false
  else
    true

/-- Go `"0123456789ABCDEF"[i]` for `i < 16`. -/
def upperhex (i : Nat) : Byte :=
  (str "0123456789ABCDEF").getD i 0

/-- What `url.QueryEscape` writes for one byte: `+` for a space, `%XX` for a
byte that must be escaped, the byte itself otherwise. -/
def escapeByte (c : Byte) : GoString :=
  if c = chr ' ' then [chr '+']
  else if shouldEscape c then [chr '%', upperhex (c.val / 16), upperhex (c.val % 16)]
  else [c]

/-- Go `url.QueryEscape(s)`. -/
def QueryEscape : GoString → GoString
  | [] => []
  | c :: s => escapeByte c ++ QueryEscape s

/-- The lookup of a generic `strings.Replacer` at the start of `s`: the first
pair, in argument order, whose old string is a prefix of `s`. -/
def Replacer.lookup (oldnew : List (GoString × GoString)) (s : GoString) :
    Option (GoString × GoString) :=
  oldnew.find? (fun p => p.1.isPrefixOf s)

/-- The scan of a generic `strings.Replacer` with non-empty old strings: left
to right, without overlapping matches and without rescanning what was written.
`skip` counts the bytes of a match still to be passed over. -/
def Replacer.scan (oldnew : List (GoString × GoString)) : Nat → GoString → GoString
  | _, [] => []
  | skip + 1, _ :: rest => Replacer.scan oldnew skip rest
  | 0, c :: rest =>
    match Replacer.lookup oldnew (c :: rest) with
    | some (old, new) => new ++ Replacer.scan oldnew (old.length - 1) rest
    | none => c :: Replacer.scan oldnew 0 rest

/-- Go `strings.NewReplacer(oldnew...).Replace(s)`. -/
def Replacer.Replace (oldnew : List (GoString × GoString)) (s : GoString) : GoString :=
  Replacer.scan oldnew 0 s

/-- Go `strings.Join(elems, sep)`. -/
def Join : List GoString → GoString → GoString
  | [], _ => []
  | [a], _ => a
  | a :: b :: rest, sep => a ++ sep ++ Join (b :: rest) sep

/-! ## Path escaping (`cos.go`, `EscapePath`, `Dir.Name`, `File.Name`) -/

/-- The package variable `replacer`. -/
def replacer : List (GoString × GoString) :=
  [(str "%2F", str "/"), (str "%2f", str "/"),
   (str "%7E", str "~"), (str "%7e", str "~")]

/-- The function `EscapePath`. -/
def EscapePath (name : GoString) : GoString :=
  Replacer.Replace replacer (QueryEscape (Trim name (str "/")))

/-- The type `COS`. -/
structure COS where
  appID : GoString
  secretID : GoString
  secretKey : GoString
deriving DecidableEq

/-- The type `Bucket`. -/
structure Bucket where
  cos : COS
  name : GoString
deriving DecidableEq

/-- The type `Dir`. -/
structure Dir where
  bucket : Bucket
  name : GoString
deriving DecidableEq

/-- The type `File`. -/
structure File where
  dir : Dir
  name : GoString
deriving DecidableEq

/-- The method `Dir.Name`. -/
def Dir.Name (d : Dir) : GoString :=
  let p := EscapePath d.name
  if p ≠ [] then p ++ str "/" else []

/-- The method `File.Name`. -/
def File.Name (f : File) : GoString := EscapePath f.name

/-- The method `File.FullName`. -/
def File.FullName (f : File) : GoString := f.dir.Name ++ f.Name

/-! ## Auxiliary definitions for path escaping -/

/-- What `EscapePath` writes for one byte of the trimmed name. -/
def finalTok (c : Byte) : GoString :=
  if c = chr '/' then [chr '/'] else escapeByte c

/-- The byte-wise form of `EscapePath` on a trimmed name. -/
def escapeTokens : GoString → GoString
  | [] => []
  | c :: s => finalTok c ++ escapeTokens s

/-- The shape of an output token: one byte other than `%`, or a `%XX` group
whose two digits are not `%` and which is none of the replacer's old strings. -/
def tokOK (tok : GoString) : Bool :=
  match tok with
  | [c] => decide (c ≠ chr '%')
  | [p, h, l] =>
    decide (p = chr '%' ∧ h ≠ chr '%' ∧ l ≠ chr '%' ∧
      Replacer.lookup replacer [p, h, l] = none)
  | _ => false

/-! ## `strconv` / `fmt` decimal formatting and `encoding/hex` -/

/-- The decimal digits of `n`, most significant first, written in front of
`acc`; `fuel` bounds the number of digits. -/
def natDigits : Nat → Nat → GoString → GoString
  | 0, _, acc => acc
  | fuel + 1, n, acc =>
    let acc := Fin.ofNat (48 + n % 10) :: acc
    if n / 10 = 0 then acc else natDigits fuel (n / 10) acc

/-- The decimal form of a natural number. -/
def formatNat (n : Nat) : GoString := natDigits (n + 1) n []

/-- Go `strconv.FormatInt(i, 10)`, which is also what `fmt.Sprintf` writes for
the verb `%d`: the decimal form, with a leading `-` for a negative number. -/
def formatInt : Int → GoString
  | Int.ofNat n => formatNat n
  | Int.negSucc n => chr '-' :: formatNat (n + 1)

/-- The number written by a string of decimal digits, read after the digits
already read as `acc`. -/
def parseDigits : GoString → Nat → Nat
  | [], acc => acc
  | c :: s, acc => parseDigits s (acc * 10 + (c.val - 48))

/-- The integer written in decimal, with an optional leading `-`. -/
def parseInt (s : GoString) : Int :=
  match s with
  | [] => 0
  | c :: rest => if c = chr '-' then -(parseDigits rest 0 : Int) else (parseDigits (c :: rest) 0 : Int)

/-- The byte with value `n % 256`. -/
def byteOf (n : Nat) : Byte := Fin.ofNat (n % 256)

/-- Go `strings.ToUpper(hex.EncodeToString(b))`: two upper-case hexadecimal
digits for each byte. -/
def upperHexString : List Byte → GoString
  | [] => []
  | b :: rest => upperhex (b.val / 16) :: upperhex (b.val % 16) :: upperHexString rest

/-! ## `crypto/sha1` and `crypto/hmac` -/

/-- Rotation to the left of a 32-bit word. -/
def rotl32 (x n : Nat) : Nat := ((x <<< n) % 4294967296) ||| (x >>> (32 - n))

/-- The chaining value of SHA-1: five 32-bit words. -/
structure Sha1State where
  h0 : Nat
  h1 : Nat
  h2 : Nat
  h3 : Nat
  h4 : Nat
deriving DecidableEq

/-- The initial chaining value of SHA-1. -/
def sha1Init : Sha1State := ⟨0x67452301, 0xEFCDAB89, 0x98BADCFE, 0x10325476, 0xC3D2E1F0⟩

/-- The big-endian 32-bit words of a block of bytes (missing bytes count as 0). -/
def wordsBE : Nat → List Byte → List Nat
  | 0, _ => []
  | n + 1, bs =>
    ((bs.getD 0 0).val * 16777216 + (bs.getD 1 0).val * 65536
      + (bs.getD 2 0).val * 256 + (bs.getD 3 0).val) :: wordsBE n (bs.drop 4)

/-- The message schedule of SHA-1, newest word first: `n` more words are added
to the words in `w`. -/
def sha1Schedule : Nat → List Nat → List Nat
  | 0, w => w
  | n + 1, w =>
    sha1Schedule n
      (rotl32 (w.getD 2 0 ^^^ w.getD 7 0 ^^^ w.getD 13 0 ^^^ w.getD 15 0) 1 :: w)

/-- One round of SHA-1: round number `t`, schedule word `w`. -/
def sha1Round (s : Sha1State) (t w : Nat) : Sha1State :=
  let f :=
    if t < 20 then (s.h1 &&& s.h2) ||| ((s.h1 ^^^ 4294967295) &&& s.h3)
    else if t < 40 then s.h1 ^^^ s.h2 ^^^ s.h3
    else if t < 60 then (s.h1 &&& s.h2) ||| (s.h1 &&& s.h3) ||| (s.h2 &&& s.h3)
    else s.h1 ^^^ s.h2 ^^^ s.h3
  let k :=
    if t < 20 then 0x5A827999
    else if t < 40 then 0x6ED9EBA1
    else if t < 60 then 0x8F1BBCDC
    else 0xCA62C1D6
  ⟨(rotl32 s.h0 5 + f + s.h4 + k + w) % 4294967296, s.h0, rotl32 s.h1 30, s.h2, s.h3⟩

/-- The rounds of SHA-1 over the schedule words, starting at round `t`. -/
def sha1Rounds : Sha1State → Nat → List Nat → Sha1State
  | s, _, [] => s
  | s, t, w :: ws => sha1Rounds (sha1Round s t w) (t + 1) ws

/-- The compression of one 64-byte block into the chaining value. -/
def sha1Block (h : Sha1State) (block : List Byte) : Sha1State :=
  let w := (sha1Schedule 64 (wordsBE 16 block).reverse).reverse
  let s := sha1Rounds h 0 w
  ⟨(h.h0 + s.h0) % 4294967296, (h.h1 + s.h1) % 4294967296, (h.h2 + s.h2) % 4294967296,
   (h.h3 + s.h3) % 4294967296, (h.h4 + s.h4) % 4294967296⟩

/-- The compression of `n` consecutive 64-byte blocks. -/
def sha1Blocks : Nat → Sha1State → List Byte → Sha1State
  | 0, h, _ => h
  | n + 1, h, bs => sha1Blocks n (sha1Block h (bs.take 64)) (bs.drop 64)

/-- The big-endian bytes of the low `8 * n` bits of `x`. -/
def bytesBE : Nat → Nat → List Byte
  | 0, _ => []
  | n + 1, x => byteOf (x / 256 ^ n) :: bytesBE n x

/-- The padding of SHA-1: a byte `0x80`, zero bytes up to 56 modulo 64, and the
length of the message in bits as a 64-bit big-endian number. -/
def sha1Pad (msg : List Byte) : List Byte :=
  msg ++ [128] ++ List.replicate ((119 - msg.length % 64) % 64) 0 ++ bytesBE 8 (8 * msg.length)

/-- Go `sha1.Sum(data)`: the 20-byte SHA-1 digest. -/
def sha1 (msg : List Byte) : List Byte :=
  let h := sha1Blocks ((msg.length + 72) / 64) sha1Init (sha1Pad msg)
  bytesBE 4 h.h0 ++ bytesBE 4 h.h1 ++ bytesBE 4 h.h2 ++ bytesBE 4 h.h3 ++ bytesBE 4 h.h4

/-- The function `sha1sum`: the upper-case hexadecimal SHA-1 digest. -/
def sha1sum (data : List Byte) : GoString := upperHexString (sha1 data)

/-- The bytes of `a`, each XORed with `x`. -/
def xorPad (a : List Byte) (x : Nat) : List Byte := a.map (fun b => byteOf (b.val ^^^ x))

/-- Go `hmac.New(sha1.New, key)` followed by `Write(msg)` and `Sum(nil)`:
HMAC-SHA1 with block size 64. -/
def hmacSha1 (key msg : List Byte) : List Byte :=
  let k := if key.length > 64 then sha1 key else key
  let k := k ++ List.replicate (64 - k.length) 0
  sha1 (xorPad k 0x5c ++ sha1 (xorPad k 0x36 ++ msg))

/-! ## `encoding/base64` (standard alphabet, padded) -/

/-- The standard base64 alphabet. -/
def base64Alphabet : GoString :=
  str "ABCDEFGHIJKLMNOPQRSTUVWXYZabcdefghijklmnopqrstuvwxyz0123456789+/"

/-- The base64 character of a 6-bit value. -/
def base64Char (i : Nat) : Byte := base64Alphabet.getD i 0

/-- The 6-bit value of a base64 character, if it is one. -/
def base64Value (c : Byte) : Option Nat :=
  let i := base64Alphabet.indexOf c
  if i < 64 then some i else none

/-- Go `base64.StdEncoding.EncodeToString`: each group of three bytes gives
four characters; a last group of one or two bytes is padded with `=`. -/
def base64Encode : List Byte → GoString
  | [] => []
  | [a] =>
    let v := a.val * 65536
    [base64Char (v / 262144 % 64), base64Char (v / 4096 % 64), chr '=', chr '=']
  | [a, b] =>
    let v := a.val * 65536 + b.val * 256
    [base64Char (v / 262144 % 64), base64Char (v / 4096 % 64), base64Char (v / 64 % 64), chr '=']
  | a :: b :: c :: rest =>
    let v := a.val * 65536 + b.val * 256 + c.val
    base64Char (v / 262144 % 64) :: base64Char (v / 4096 % 64) :: base64Char (v / 64 % 64)
      :: base64Char (v % 64) :: base64Encode rest

/-- Go `base64.StdEncoding.DecodeString` on input without line breaks: groups
of four characters give three bytes; the last group may end in `=` or `==`.
`fuel` bounds the number of groups. -/
def base64DecodeAux : Nat → GoString → Option (List Byte)
  | _, [] => some []
  | 0, _ :: _ => none
  | fuel + 1, s =>
    match s with
    | [a, b, c, d] =>
      if c = chr '=' ∧ d = chr '=' then
        match base64Value a, base64Value b with
        | some x, some y => some [byteOf ((x * 262144 + y * 4096) / 65536)]
        | _, _ => none
      else if d = chr '=' then
        match base64Value a, base64Value b, base64Value c with
        | some x, some y, some z =>
          let v := x * 262144 + y * 4096 + z * 64
          some [byteOf (v / 65536), byteOf (v / 256)]
        | _, _, _ => none
      else
        match base64Value a, base64Value b, base64Value c, base64Value d with
        | some x, some y, some z, some u =>
          let v := x * 262144 + y * 4096 + z * 64 + u
          some [byteOf (v / 65536), byteOf (v / 256), byteOf v]
        | _, _, _, _ => none
    | a :: b :: c :: d :: rest =>
      match base64Value a, base64Value b, base64Value c, base64Value d with
      | some x, some y, some z, some u =>
        let v := x * 262144 + y * 4096 + z * 64 + u
        (base64DecodeAux fuel rest).map
          (fun t => byteOf (v / 65536) :: byteOf (v / 256) :: byteOf v :: t)
      | _, _, _, _ => none
    | _ => none

/-- Go `base64.StdEncoding.DecodeString`. -/
def base64Decode (s : GoString) : Option (List Byte) := base64DecodeAux s.length s

/-! ## The signer (`cos.go`, `COS.sign`, `Bucket.sign`, `Dir.Sign`, `File.Sign`) -/

/-- The payload `fmt.Sprintf("a=%s&b=%s&k=%s&e=%d&t=%d&r=%d&f=%s", ...)` that
`COS.sign` signs. -/
def COS.payload (cos : COS) (b : GoString) (e t r : Int) (f : GoString) : GoString :=
  str "a=" ++ cos.appID ++ str "&b=" ++ b ++ str "&k=" ++ cos.secretID
    ++ str "&e=" ++ formatInt e ++ str "&t=" ++ formatInt t ++ str "&r=" ++ formatInt r
    ++ str "&f=" ++ f

/-- The method `COS.sign`. -/
def COS.sign (cos : COS) (b : GoString) (e t r : Int) (f : GoString) : GoString :=
  let s := cos.payload b e t r f
  let h := hmacSha1 cos.secretKey s
  base64Encode (h ++ s)

/-- The method `Bucket.getResourcePath`. -/
def Bucket.getResourcePath (b : Bucket) (path : GoString) : GoString :=
  Join [[], b.cos.appID, b.name, path] (str "/")

/-- The value of a Go `int64` sum: the mathematical sum wrapped to 64 bits,
two's complement. -/
def wrapInt64 (x : Int) : Int := (x + 9223372036854775808) % 18446744073709551616 - 9223372036854775808

/-- The method `Bucket.sign`. The two effects of the source are parameters:
`now` is `time.Now().Unix()` and `rnd` is `random.Int()`. -/
def Bucket.sign (b : Bucket) (now rnd : Int) (path : GoString) (seconds : Int) : GoString :=
  let t := now
  let e : Int := if seconds > 0 then wrapInt64 (t + seconds) else 0
  let f : GoString := if seconds > 0 then [] else b.getResourcePath path
  b.cos.sign b.name e t rnd f

/-- The method `Dir.Sign`. -/
def Dir.Sign (d : Dir) (now rnd : Int) (seconds : Int) : GoString :=
  d.bucket.sign now rnd d.Name seconds

/-- The method `File.Sign`. -/
def File.Sign (f : File) (now rnd : Int) (seconds : Int) : GoString :=
  f.dir.bucket.sign now rnd f.FullName seconds

/-! ## The fixtures of `TestSign` (`cos_test.go`) -/

/-- The `COS` value of `TestSign`. -/
def testSignCOS : COS :=
  ⟨str "200001", str "AKIDUfLUEUigQiXqm7CVSspKJnuaiIKtxqAv", str "bLcPnl88WU30VY57ipRhSePfPdOfSruK"⟩

/-- The bucket of `TestSign`. -/
def testSignBucket : Bucket := ⟨testSignCOS, str "newbucket"⟩

/-- The constant `more` of `TestSign`: the expected multi-use token. -/
def testSignMore : GoString :=
  str "5bIObv9KXNcITrcVNRGCLG3K6xxhPTIwMDAwMSZiPW5ld2J1Y2tldCZrPUFLSURVZkxVRVVpZ1FpWHFtN0NWU3NwS0pudWFpSUt0eHFBdiZlPTE0Mzg2NjkxMTUmdD0xNDM2MDc3MTE1JnI9MTExNjImZj0="

/-- The constant `once` of `TestSign`: the expected single-use token. -/
def testSignOnce : GoString :=
  str "OXy21aC6AjhScJaJqrBxcS0Y7lNhPTIwMDAwMSZiPW5ld2J1Y2tldCZrPUFLSURVZkxVRVVpZ1FpWHFtN0NWU3NwS0pudWFpSUt0eHFBdiZlPTAmdD0xNDM2MDc3MTE1JnI9MTExNjImZj0vMjAwMDAxL25ld2J1Y2tldC90ZW5jZW50X3Rlc3QuanBn"

/-! ## The data of the slice upload (`cos.go`) -/

/-- Go `error` values, as far as `UploadSlice` tells them apart: the two
sentinels of package `io`, a value made by `errors.New`, and any other error
(of `os`, `net/http`, `encoding/json`, or a `*Reply`), named by a number. -/
inductive GoError where
  | EOF
  | ErrUnexpectedEOF
  | errorsNew (msg : GoString)
  | other (id : Nat)
deriving DecidableEq

/-- The type `UploadResult`. -/
structure UploadResult where
  AccessURL : GoString
  ResourcePath : GoString
  SourceURL : GoString
  URL : GoString
deriving DecidableEq

/-- The type `uploadPartResult`; the embedded `UploadResult` is the parent. -/
structure uploadPartResult extends UploadResult where
  Offset : Int
  Session : GoString
deriving DecidableEq

/-- The type `uploadFirstPartResult`; the embedded `uploadPartResult` is the
parent. -/
structure uploadFirstPartResult extends uploadPartResult where
  SliceSize : Int
deriving DecidableEq

/-- The function `zeroUploadPartResult`: every field is reset, or a new zero
value is allocated. -/
def zeroUploadPartResult (part : Option uploadPartResult) : uploadPartResult :=
  match part with
  | some part =>
    { part with AccessURL := [], Offset := 0, ResourcePath := [], Session := [],
                SourceURL := [], URL := [] }
  | none => ⟨⟨[], [], [], []⟩, 0, []⟩

/-- The type `params` (`map[string]string`): at most one entry for a key. -/
structure params where
  entries : List (GoString × GoString)
deriving DecidableEq

/-- The function `newParams`. -/
def newParams (op : GoString) : params := ⟨[(str "op", op)]⟩

/-- The method `params.Set`: `m[k] = v`. -/
def params.Set (m : params) (k v : GoString) : params :=
  ⟨(k, v) :: m.entries.filter (fun p => decide (p.1 ≠ k))⟩

/-- Go `m[k]` on a `map[string]string`: the empty string for a missing key. -/
def params.get (m : params) (k : GoString) : GoString :=
  match m.entries.find? (fun p => decide (p.1 = k)) with
  | some p => p.2
  | none => []

/-- What one call of the method `File.upload` sends: the escaped full name of
the file (the path of the request URL), the content (`none` for a nil slice,
which sends no file part) and the form fields. -/
structure Request where
  path : GoString
  content : Option (List Byte)
  body : params
deriving DecidableEq

/-- The number of content bytes of a request. -/
def Request.len (r : Request) : Nat := (r.content.getD []).length

/-- The value `new(uploadPartResult)`: every field has its zero value. -/
def zeroPart : uploadPartResult := ⟨⟨[], [], [], []⟩, 0, []⟩

/-- The value `new(uploadFirstPartResult)`. -/
def zeroFirstPart : uploadFirstPartResult := ⟨zeroPart, 0⟩

/-- The method `File.upload(content, body, data)` as `UploadSlice` sees it,
that is signing, the multipart body, the HTTP exchange of `do` and the decoding
of the reply into `data`: given the request and the value of `data` before the
call, the negotiation call gives an error or the `uploadFirstPartResult` that
`data` holds afterwards, and chunk call number `k` (counted from 0) gives an
error or the `uploadPartResult` that `data` holds afterwards. -/
structure Server where
  first : Request → uploadFirstPartResult → Except GoError uploadFirstPartResult
  part : Nat → Request → uploadPartResult → Except GoError uploadPartResult

/-- The local file as `UploadSlice` sees it: the error of `os.Open`, the size
reported by `file.Stat`, the bytes that `io.Copy` streams into the hash, the
error of `file.Seek(offset, os.SEEK_SET)`, and the outcome of the read system
call number `k` (counted from 0) at a file position into a buffer of a given
length. -/
structure LocalFile where
  openErr : Option GoError
  stat : Except GoError Int
  copy : Except GoError (List Byte)
  seek : Int → Option GoError
  read : Nat → Int → Nat → Except GoError (List Byte)

/-- Go `(*os.File).Read(b)` over the outcome of the system call, for a buffer
of `len` bytes: an error gives `(0, err)`, no byte for a non-empty buffer
gives `(0, io.EOF)`, and bytes give `(n, nil)`. -/
def fileRead (raw : Except GoError (List Byte)) (len : Nat) : List Byte × Option GoError :=
  match raw with
  | Except.error e => ([], some e)
  | Except.ok bs =>
    if bs.take len = [] ∧ 0 < len then ([], some GoError.EOF) else (bs.take len, none)

/-- The error `EINVAL` of a seek. -/
def EINVAL : GoError := GoError.other 22

/-- A regular file with the given content that does not change, on a platform
where a seek reaches the offsets from 0 to `maxOffset` (the limit of the file
system) and one read system call transfers at most `maxRead` bytes. Open, stat
and the hashing copy succeed; a seek outside these offsets fails with
`EINVAL`; a read gives the bytes from the file position on, as many as the
buffer takes, the file has and one call transfers. -/
def regularFile (content : List Byte) (maxOffset : Int) (maxRead : Nat) : LocalFile where
  openErr := none
  stat := Except.ok content.length
  copy := Except.ok content
  seek := fun offset => if offset < 0 ∨ maxOffset < offset then some EINVAL else none
  read := fun _ pos len => Except.ok ((content.drop pos.toNat).take (min len maxRead))

/-- What `UploadSlice` returns: `(*UploadResult, string, error)`. -/
structure Outcome where
  result : Option UploadResult
  session : GoString
  err : Option GoError
deriving DecidableEq

/-- One chunk call and its reply. -/
structure Exchange where
  req : Request
  reply : Except GoError uploadPartResult

/-- The state of the chunk loop of `UploadSlice`: the variables `offset`,
`body` and `part`, and a record of the chunk calls and of the reads made so
far (they number the calls of the server and of the file). -/
structure LoopState where
  offset : Int
  body : params
  part : Option uploadPartResult
  calls : List Exchange
  reads : List (List Byte × Option GoError)

/-- A run of `UploadSlice`: what it returns, the negotiation request if it was
sent, the chunk calls with their replies, and the results of `file.Read`, in
order. -/
structure Run where
  out : Outcome
  first : Option Request
  calls : List Exchange
  reads : List (List Byte × Option GoError)

/-- The outcome of one pass through the chunk loop: the function returns (or
leaves the loop, after which it returns), or the loop goes on. -/
inductive Iter where
  | done (out : Outcome) (calls : List Exchange) (reads : List (List Byte × Option GoError))
  | next (s : LoopState)

/-- The package variable `SliceSize`, at its initial value. -/
def SliceSize : Int := 512 * 1024

/-- The error `errors.New("session corrupt")`. -/
def sessionCorrupt : GoError := GoError.errorsNew (str "session corrupt")

/-- The call `file.Read(b)` of the chunk loop in state `s`, for a buffer of
`sliceSize` bytes: the bytes `b[:n]` and the error. The file position is
`offset`: the seek set it, and every read of `n` bytes after which the loop
went on was followed by `offset += n`. -/
def chunkRead (fs : LocalFile) (sliceSize : Nat) (s : LoopState) : List Byte × Option GoError :=
  fileRead (fs.read s.reads.length s.offset sliceSize) sliceSize

/-- The form fields of the chunk call in state `s` for the bytes `b`:
`body.Set("sha", sha1sum(b[:n])).Set("offset", strconv.FormatInt(offset, 10))`. -/
def chunkBody (s : LoopState) (b : List Byte) : params :=
  (s.body.Set (str "sha") (sha1sum b)).Set (str "offset") (formatInt s.offset)

/-- The chunk call in state `s` for the bytes `b`. -/
def chunkRequest (f : File) (s : LoopState) (b : List Byte) : Request :=
  ⟨f.FullName, some b, chunkBody s b⟩

/-- The chunk loop of `UploadSlice`, one pass: the test `size > offset` and the
loop body. After a successful `f.upload` the variable `err` is nil, so the
test `err == io.EOF` at the end of the body can only hold when no byte was
read. The sum `offset + n` is exact: an `int64` does not overflow on offsets
into a file. -/
def chunkIter (f : File) (fs : LocalFile) (srv : Server) (size : Int) (sliceSize : Nat)
    (session : GoString) (s : LoopState) : Iter :=
  if size > s.offset then
    let rd := chunkRead fs sliceSize s
    let reads := s.reads ++ [rd]
    if rd.2 ≠ none ∧ rd.2 ≠ some GoError.EOF then
      Iter.done ⟨none, session, rd.2⟩ s.calls reads
    else if rd.1.length > 0 then
      let part := zeroUploadPartResult s.part
      let req := chunkRequest f s rd.1
      let reply := srv.part s.calls.length req part
      let calls := s.calls ++ [⟨req, reply⟩]
      match reply with
      | Except.error e => Iter.done ⟨none, session, some e⟩ calls reads
      | Except.ok part =>
        if part.URL ≠ [] then
          Iter.done ⟨some part.toUploadResult, [], none⟩ calls reads
        else if part.Session ≠ session then
          Iter.done ⟨none, [], some sessionCorrupt⟩ calls reads
        else
          Iter.next ⟨s.offset + rd.1.length, req.body, some part, calls, reads⟩
    else if rd.2 = some GoError.EOF then
      Iter.done ⟨none, session, some GoError.ErrUnexpectedEOF⟩ s.calls reads
    else
      Iter.next { s with reads := reads }
  else
    Iter.done ⟨none, session, some GoError.ErrUnexpectedEOF⟩ s.calls s.reads

/-- The chunk loop of `UploadSlice`, bounded by `fuel` passes; `none` when the
fuel does not suffice. -/
def chunkLoop (f : File) (fs : LocalFile) (srv : Server) (size : Int) (sliceSize : Nat)
    (session : GoString) :
    Nat → LoopState → Option (Outcome × List Exchange × List (List Byte × Option GoError))
  | 0, s =>
    match chunkIter f fs srv size sliceSize session s with
    | Iter.done out calls reads => some (out, calls, reads)
    | Iter.next _ => none
  | fuel + 1, s =>
    match chunkIter f fs srv size sliceSize session s with
    | Iter.done out calls reads => some (out, calls, reads)
    | Iter.next s' => chunkLoop f fs srv size sliceSize session fuel s'

/-- The request of the negotiation call of `UploadSlice`. -/
def negotiationRequest (f : File) (bizAttr : GoString) (sliceSize : Int) (session : GoString)
    (size : Int) (hashed : List Byte) : Request :=
  let sliceSize := if sliceSize ≤ 0 then SliceSize else sliceSize
  ⟨f.FullName, none,
    (((((newParams (str "upload_slice")).Set (str "biz_attr") bizAttr).Set
      (str "slice_size") (formatInt sliceSize)).Set (str "session") session).Set
      (str "sha") (upperHexString (sha1 hashed))).Set (str "filesize") (formatInt size)⟩

/-- The session `UploadSlice` goes on with after the negotiation: the one of
the reply unless it is empty. -/
def adoptedSession (firstPart : uploadFirstPartResult) (session : GoString) : GoString :=
  if firstPart.Session ≠ [] then firstPart.Session else session

/-- The slice size `UploadSlice` reads with: the one of the reply if positive,
else the caller's if positive, else the default. -/
def effectiveSliceSize (firstPart : uploadFirstPartResult) (sliceSize : Int) : Int :=
  if firstPart.SliceSize > 0 then firstPart.SliceSize
  else if sliceSize ≤ 0 then SliceSize else sliceSize

/-- The state in which `UploadSlice` enters the chunk loop. -/
def loopStart (firstPart : uploadFirstPartResult) (session : GoString) : LoopState :=
  ⟨firstPart.Offset, (newParams (str "upload_slice")).Set (str "session")
      (adoptedSession firstPart session), none, [], []⟩

/-- The method `File.UploadSlice` on the local file `fs` against the server
`srv`. The result is `none` only if the fuel given to the chunk loop, the
distance from the start offset to the size, did not suffice. -/
def File.UploadSlice (f : File) (fs : LocalFile) (srv : Server) (bizAttr : GoString)
    (sliceSize : Int) (session : GoString) : Option Run :=
  match fs.openErr with
  | some e => some ⟨⟨none, [], some e⟩, none, [], []⟩
  | none =>
    match fs.stat with
    | Except.error e => some ⟨⟨none, [], some e⟩, none, [], []⟩
    | Except.ok size =>
      match fs.copy with
      | Except.error e => some ⟨⟨none, [], some e⟩, none, [], []⟩
      | Except.ok hashed =>
        let req := negotiationRequest f bizAttr sliceSize session size hashed
        match srv.first req zeroFirstPart with
        | Except.error e => some ⟨⟨none, [], some e⟩, some req, [], []⟩
        | Except.ok firstPart =>
          if firstPart.URL ≠ [] then
            some ⟨⟨some firstPart.toUploadResult, [], none⟩, some req, [], []⟩
          else
            match fs.seek firstPart.Offset with
            | some e => some ⟨⟨none, adoptedSession firstPart session, some e⟩, some req, [], []⟩
            | none =>
              (chunkLoop f fs srv size (effectiveSliceSize firstPart sliceSize).toNat
                (adoptedSession firstPart session) (size - firstPart.Offset).toNat
                (loopStart firstPart session)).map
                (fun r => ⟨r.1, some req, r.2.1, r.2.2⟩)

/-! ## Auxiliary definitions for the slice upload -/

/-- A chunk exchange after which the loop goes on: the call succeeded, the
reply has no URL and carries the session of the loop. -/
def Exchange.continues (session : GoString) (ex : Exchange) : Prop :=
  ∃ part, ex.reply = Except.ok part ∧ part.URL = [] ∧ part.Session = session

/-- A read after which a chunk call is made: bytes and no error. -/
def readOK (rd : List Byte × Option GoError) : Prop := rd.2 = none ∧ rd.1 ≠ []

/-- How the last chunk call of a run decides what `UploadSlice` returns, when
the run ends in a chunk call. -/
def lastDecides (session : GoString) (last : Exchange) (out : Outcome) : Prop :=
  (∃ e, last.reply = Except.error e ∧ out = ⟨none, session, some e⟩) ∨
  (∃ part, last.reply = Except.ok part ∧ part.URL ≠ [] ∧
    out = ⟨some part.toUploadResult, [], none⟩) ∨
  (∃ part, last.reply = Except.ok part ∧ part.URL = [] ∧ part.Session ≠ session ∧
    out = ⟨none, [], some sessionCorrupt⟩)

/-- The ways in which the chunk loop ends: the offset reached the size; a read
reported the end of the file; a read failed; or the last chunk call decided. -/
def loopEnds (session : GoString) (out : Outcome) (calls : List Exchange)
    (reads : List (List Byte × Option GoError)) : Prop :=
  ((∀ ex ∈ calls, ex.continues session) ∧ (∀ rd ∈ reads, readOK rd) ∧
    out = ⟨none, session, some GoError.ErrUnexpectedEOF⟩) ∨
  (∃ ri, reads = ri ++ [([], some GoError.EOF)] ∧ (∀ rd ∈ ri, readOK rd) ∧
    (∀ ex ∈ calls, ex.continues session) ∧
    out = ⟨none, session, some GoError.ErrUnexpectedEOF⟩) ∨
  (∃ ri bs e, reads = ri ++ [(bs, some e)] ∧ e ≠ GoError.EOF ∧ (∀ rd ∈ ri, readOK rd) ∧
    (∀ ex ∈ calls, ex.continues session) ∧ out = ⟨none, session, some e⟩) ∨
  (∃ ci last, calls = ci ++ [last] ∧ (∀ ex ∈ ci, ex.continues session) ∧
    (∀ rd ∈ reads, readOK rd) ∧ lastDecides session last out)

/-- The total number of content bytes of a list of chunk calls. -/
def sent (calls : List Exchange) : Nat := (calls.map (fun ex => ex.req.len)).sum

/-- What the chunk call `ex` that follows the chunk calls `pre` looks like, in
a run that entered the loop at offset `o0`: its offset is `o0` plus the bytes
sent before, which is below the size; its content is what the read at that
offset gave, which is not empty; its fields are the operation, the session of
the loop, the offset in decimal and the SHA-1 of the content; and its reply is
the server's reply to it. -/
def chunkSpec (f : File) (fs : LocalFile) (srv : Server) (size : Int) (L : Nat)
    (session : GoString) (o0 : Int) (pre : List Exchange) (ex : Exchange) : Prop :=
  o0 + sent pre < size ∧
  ex.req.path = f.FullName ∧
  ex.req.content = some (fileRead (fs.read pre.length (o0 + sent pre) L) L).1 ∧
  (fileRead (fs.read pre.length (o0 + sent pre) L) L).1 ≠ [] ∧
  ex.req.body.get (str "op") = str "upload_slice" ∧
  ex.req.body.get (str "session") = session ∧
  ex.req.body.get (str "offset") = formatInt (o0 + sent pre) ∧
  ex.req.body.get (str "sha") = sha1sum (fileRead (fs.read pre.length (o0 + sent pre) L) L).1 ∧
  ex.reply = srv.part pre.length ex.req zeroPart

/-- The invariant of the chunk loop on its requests, for a run that entered
the loop at offset `o0`. -/
def loopInv (f : File) (fs : LocalFile) (srv : Server) (size : Int) (L : Nat)
    (session : GoString) (o0 : Int) (s : LoopState) : Prop :=
  s.body.get (str "op") = str "upload_slice" ∧
  s.body.get (str "session") = session ∧
  s.offset = o0 + sent s.calls ∧
  s.reads.length = s.calls.length ∧
  ∀ pre ex post, s.calls = pre ++ ex :: post → chunkSpec f fs srv size L session o0 pre ex

/-- What the read `rd` that follows the reads `pre` is, in a run that entered
the loop at offset `o0` and made the chunk calls `calls`: the result of
`file.Read` at the offset `o0` plus the bytes of the first `pre.length` chunk
calls, an offset below the size. -/
def readSpec (fs : LocalFile) (size : Int) (L : Nat) (o0 : Int) (calls : List Exchange)
    (pre : List (List Byte × Option GoError)) (rd : List Byte × Option GoError) : Prop :=
  o0 + sent (calls.take pre.length) < size ∧
  rd = fileRead (fs.read pre.length (o0 + sent (calls.take pre.length)) L) L

/-- The runs of `UploadSlice`, by the place where the function returns: at a
failure of open, stat or the hashing copy; at the negotiation call, if it
fails or its reply carries a URL; at a failing seek; or in the chunk loop. -/
def runSpec (f : File) (fs : LocalFile) (srv : Server) (bizAttr : GoString)
    (sliceSize : Int) (session : GoString) (run : Run) : Prop :=
  (∃ e, (fs.openErr = some e ∨ (fs.openErr = none ∧ fs.stat = Except.error e) ∨
        (∃ size, fs.openErr = none ∧ fs.stat = Except.ok size ∧ fs.copy = Except.error e)) ∧
      run.out = ⟨none, [], some e⟩ ∧ run.first = none ∧ run.calls = [] ∧ run.reads = []) ∨
  (∃ size hashed, fs.openErr = none ∧ fs.stat = Except.ok size ∧ fs.copy = Except.ok hashed ∧
    run.first = some (negotiationRequest f bizAttr sliceSize session size hashed) ∧
    ((∃ e, srv.first (negotiationRequest f bizAttr sliceSize session size hashed) zeroFirstPart
          = Except.error e ∧
        run.out = ⟨none, [], some e⟩ ∧ run.calls = [] ∧ run.reads = []) ∨
     (∃ firstPart, srv.first (negotiationRequest f bizAttr sliceSize session size hashed) zeroFirstPart
          = Except.ok firstPart ∧
        ((firstPart.URL ≠ [] ∧ run.out = ⟨some firstPart.toUploadResult, [], none⟩ ∧
            run.calls = [] ∧ run.reads = []) ∨
         (firstPart.URL = [] ∧ ∃ e, fs.seek firstPart.Offset = some e ∧
            run.out = ⟨none, adoptedSession firstPart session, some e⟩ ∧
            run.calls = [] ∧ run.reads = []) ∨
         (firstPart.URL = [] ∧ fs.seek firstPart.Offset = none ∧
            loopEnds (adoptedSession firstPart session) run.out run.calls run.reads ∧
            (∀ pre ex post, run.calls = pre ++ ex :: post →
              chunkSpec f fs srv size (effectiveSliceSize firstPart sliceSize).toNat
                (adoptedSession firstPart session) firstPart.Offset pre ex) ∧
            (∀ pre rd post, run.reads = pre ++ rd :: post →
              readSpec fs size (effectiveSliceSize firstPart sliceSize).toNat firstPart.Offset
                run.calls pre rd) ∧
            ((∀ ex ∈ run.calls, ex.continues (adoptedSession firstPart session)) →
              (∀ rd ∈ run.reads, readOK rd) →
              size ≤ firstPart.Offset + sent run.calls))))))

/-! ## Fixtures for the slice upload -/

/-- A file `dir/big.bin` in the bucket of `TestSign`. -/
def scenarioFile : File := ⟨⟨testSignBucket, str "dir"⟩, str "big.bin"⟩

/-- A local file content of 2000 bytes. -/
def scenarioContent : List Byte := (List.range 2000).map byteOf

/-- The largest offset of a seek in the fixtures: 16 TiB less 4 KiB. -/
def fixtureMaxOffset : Int := 17592186040320

/-- The most bytes one read transfers in the fixtures: 1 GiB. -/
def fixtureMaxRead : Nat := 1073741824

/-- The regular local file of 2000 bytes of the fixtures. -/
def scenarioLocal : LocalFile := regularFile scenarioContent fixtureMaxOffset fixtureMaxRead

/-- A local file content of 3 GiB. -/
@[irreducible]
def bigContent : List Byte := List.replicate 3221225472 0

/-- The result a server reports for the completed upload. -/
def scenarioResult : UploadResult :=
  ⟨str "http://access/big.bin", str "/200001/newbucket/dir/big.bin",
   str "http://source/big.bin", str "http://url/big.bin"⟩

/-- A reply without URL: start or go on at `offset` in `session`. -/
def goOn (offset : Int) (session : GoString) : uploadPartResult :=
  ⟨⟨[], [], [], []⟩, offset, session⟩

/-- A server that starts the session `s1` at offset 0 without a slice size of
its own, echoes the session on every chunk, and reports the completed upload
in its reply to the fourth chunk. -/
def scenarioServer : Server where
  first := fun _ _ => Except.ok ⟨goOn 0 (str "s1"), 0⟩
  part := fun k req _ =>
    if k = 3 then Except.ok ⟨scenarioResult, 0, []⟩
    else Except.ok (goOn 0 (req.body.get (str "session")))

/-- A server that already has the file: its negotiation reply carries the
URL. -/
def knownFileServer : Server where
  first := fun _ _ => Except.ok ⟨⟨scenarioResult, 0, []⟩, 0⟩
  part := fun _ req _ => Except.ok (goOn 0 (req.body.get (str "session")))

/-- A server that starts the session `s1` and answers the first chunk with the
completed upload under another session. -/
def otherSessionDoneServer : Server where
  first := fun _ _ => Except.ok ⟨goOn 0 (str "s1"), 0⟩
  part := fun _ _ _ => Except.ok ⟨scenarioResult, 0, str "other"⟩

/-- A server that starts the session `s1` and answers every chunk without URL
under another session. -/
def corruptServer : Server where
  first := fun _ _ => Except.ok ⟨goOn 0 (str "s1"), 0⟩
  part := fun _ _ _ => Except.ok (goOn 0 (str "other"))

/-- A server whose negotiation call fails. -/
def downServer : Server where
  first := fun _ _ => Except.error (GoError.other 7)
  part := fun _ req _ => Except.ok (goOn 0 (req.body.get (str "session")))

/-- A server that starts the session `s1` and whose chunk calls fail. -/
def flakyServer : Server where
  first := fun _ _ => Except.ok ⟨goOn 0 (str "s1"), 0⟩
  part := fun _ _ _ => Except.error (GoError.other 8)

/-- A server that starts the session `s1` at the given offset and echoes the
session on every chunk, never reporting a URL. -/
def neverDoneServer (offset : Int) : Server where
  first := fun _ _ => Except.ok ⟨goOn offset (str "s1"), 0⟩
  part := fun _ req _ => Except.ok (goOn 0 (req.body.get (str "session")))

/-- A local file that cannot be opened. -/
def missingFile : LocalFile :=
  { regularFile [] fixtureMaxOffset fixtureMaxRead with openErr := some (GoError.other 2) }

/-- A local file on which every seek fails. -/
def brokenSeekFile (content : List Byte) : LocalFile :=
  { regularFile content fixtureMaxOffset fixtureMaxRead with
    seek := fun _ => some (GoError.other 5) }

/-- A local file on which every read fails. -/
def brokenReadFile (content : List Byte) : LocalFile :=
  { regularFile content fixtureMaxOffset fixtureMaxRead with
    read := fun _ _ _ => Except.error (GoError.other 6) }

/-! # Part II: lemmas -/

/-! ## Lemmas on path escaping -/

theorem tokOK_finalTok : ∀ c : Byte, tokOK (finalTok c) = true := by decide!

theorem tokOK_escapeByte : ∀ c : Byte, c ≠ chr '/' → tokOK (escapeByte c) = true := by decide!

theorem escapeByte_slash : escapeByte (chr '/') = [chr '%', chr '2', chr 'F'] := by decide

theorem replacer_old_shape :
    ∀ p ∈ replacer, ∃ x y, p.1 = [chr '%', x, y] := by
  intro p hp
  simp only [replacer, List.mem_cons, List.mem_singleton, List.not_mem_nil, or_false] at hp
  rcases hp with h | h | h | h <;> subst h
  · exact ⟨chr '2', chr 'F', by decide⟩
  · exact ⟨chr '2', chr 'f', by decide⟩
  · exact ⟨chr '7', chr 'E', by decide⟩
  · exact ⟨chr '7', chr 'e', by decide⟩

theorem lookup_eq_none_iff (s : GoString) :
    Replacer.lookup replacer s = none ↔ ∀ p ∈ replacer, ¬ p.1 <+: s := by
  simp [Replacer.lookup, List.find?_eq_none]

theorem lookup_of_ne_percent (c : Byte) (rest : GoString) (h : c ≠ chr '%') :
    Replacer.lookup replacer (c :: rest) = none := by
  rw [lookup_eq_none_iff]
  intro p hp hpre
  obtain ⟨x, y, hxy⟩ := replacer_old_shape p hp
  rw [hxy, List.cons_prefix_cons] at hpre
  exact h hpre.1.symm

theorem prefix_three (x y h l : Byte) (p : Byte) (rest : GoString) :
    [p, x, y] <+: p :: h :: l :: rest ↔ [p, x, y] <+: [p, h, l] := by
  simp [List.cons_prefix_cons]

theorem lookup_triple_none (h l : Byte) (rest : GoString)
    (hn : Replacer.lookup replacer [chr '%', h, l] = none) :
    Replacer.lookup replacer (chr '%' :: h :: l :: rest) = none := by
  rw [lookup_eq_none_iff] at hn ⊢
  intro p hp hpre
  obtain ⟨x, y, hxy⟩ := replacer_old_shape p hp
  apply hn p hp
  rw [hxy] at hpre ⊢
  exact (prefix_three x y h l _ rest).1 hpre

theorem scan_single (c : Byte) (rest : GoString) (h : c ≠ chr '%') :
    Replacer.scan replacer 0 (c :: rest) = c :: Replacer.scan replacer 0 rest := by
  simp [Replacer.scan, lookup_of_ne_percent c rest h]

theorem scan_triple (h l : Byte) (rest : GoString)
    (hh : h ≠ chr '%') (hl : l ≠ chr '%')
    (hn : Replacer.lookup replacer [chr '%', h, l] = none) :
    Replacer.scan replacer 0 (chr '%' :: h :: l :: rest)
      = chr '%' :: h :: l :: Replacer.scan replacer 0 rest := by
  rw [Replacer.scan, lookup_triple_none h l rest hn]
  simp only
  rw [scan_single h _ hh, scan_single l _ hl]

theorem lookup_slash (rest : GoString) :
    Replacer.lookup replacer (chr '%' :: chr '2' :: chr 'F' :: rest)
      = some (str "%2F", str "/") := by
  simp [Replacer.lookup, replacer, List.find?, List.isPrefixOf, str, chr]

theorem scan_slash (rest : GoString) :
    Replacer.scan replacer 0 (chr '%' :: chr '2' :: chr 'F' :: rest)
      = chr '/' :: Replacer.scan replacer 0 rest := by
  rw [Replacer.scan, lookup_slash]
  simp [Replacer.scan, str, chr]

theorem scan_escapeByte (c : Byte) (rest : GoString) :
    Replacer.scan replacer 0 (escapeByte c ++ rest)
      = finalTok c ++ Replacer.scan replacer 0 rest := by
  by_cases hc : c = chr '/'
  · subst hc
    rw [escapeByte_slash]
    simp only [finalTok, if_true, List.cons_append, List.nil_append]
    exact scan_slash rest
  · have hok := tokOK_escapeByte c hc
    have hft : finalTok c = escapeByte c := by simp [finalTok, hc]
    rw [hft]
    generalize escapeByte c = tok at hok
    match tok, hok with
    | [a], hok =>
      simp only [tokOK, decide_eq_true_eq] at hok
      simpa using scan_single a rest hok
    | [p, h, l], hok =>
      simp only [tokOK, decide_eq_true_eq] at hok
      obtain ⟨hp, hh, hl, hn⟩ := hok
      subst hp
      simpa using scan_triple h l rest hh hl hn

theorem Replace_QueryEscape (t : GoString) :
    Replacer.Replace replacer (QueryEscape t) = escapeTokens t := by
  unfold Replacer.Replace
  induction t with
  | nil => simp [QueryEscape, escapeTokens, Replacer.scan]
  | cons c s ih => rw [QueryEscape, escapeTokens, scan_escapeByte, ih]

theorem not_infix_tok (tok rest : GoString) (hok : tokOK tok = true)
    (hrest : ∀ p ∈ replacer, ¬ p.1 <:+: rest) :
    ∀ p ∈ replacer, ¬ p.1 <:+: tok ++ rest := by
  intro p hp hin
  obtain ⟨x, y, hxy⟩ := replacer_old_shape p hp
  have hr := hrest p hp
  rw [hxy] at hin hr
  match tok, hok with
  | [a], hok =>
    simp only [tokOK, decide_eq_true_eq] at hok
    simp only [List.cons_append, List.nil_append, List.infix_cons_iff,
      List.cons_prefix_cons] at hin
    rcases hin with h | h
    · exact hok h.1.symm
    · exact hr h
  | [q, h, l], hok =>
    simp only [tokOK, decide_eq_true_eq] at hok
    obtain ⟨hq, hh, hl, hn⟩ := hok
    subst hq
    simp only [List.cons_append, List.nil_append, List.infix_cons_iff,
      List.cons_prefix_cons] at hin
    rcases hin with h1 | h1 | h1 | h1
    · rw [lookup_eq_none_iff] at hn
      apply hn p hp
      rw [hxy]
      simp [List.cons_prefix_cons, h1.2.1, h1.2.2.1]
    · exact hh h1.1.symm
    · exact hl h1.1.symm
    · exact hr h1

theorem not_infix_escapeTokens (t : GoString) :
    ∀ p ∈ replacer, ¬ p.1 <:+: escapeTokens t := by
  induction t with
  | nil =>
    intro p hp hin
    obtain ⟨x, y, hxy⟩ := replacer_old_shape p hp
    rw [hxy] at hin
    simp [escapeTokens] at hin
  | cons c s ih =>
    rw [escapeTokens]
    exact not_infix_tok _ _ (tokOK_finalTok c) ih

theorem finalTok_ends : ∀ c : Byte, c ≠ chr '/' →
    (∃ x, (finalTok c).head? = some x ∧ x ≠ chr '/') ∧
    (∃ y, (finalTok c).getLast? = some y ∧ y ≠ chr '/') := by
  decide!

theorem escapeTokens_append (s u : GoString) :
    escapeTokens (s ++ u) = escapeTokens s ++ escapeTokens u := by
  induction s with
  | nil => simp [escapeTokens]
  | cons c s ih => simp [escapeTokens, ih]

theorem escapeTokens_head (t : GoString) (h : t.head? ≠ some (chr '/')) :
    (escapeTokens t).head? ≠ some (chr '/') := by
  cases t with
  | nil => simp [escapeTokens]
  | cons c s =>
    have hc : c ≠ chr '/' := by
      intro hc
      apply h
      simp [hc]
    obtain ⟨⟨x, hx, hne⟩, _⟩ := finalTok_ends c hc
    rw [escapeTokens, List.head?_append, hx]
    simpa using hne

theorem escapeTokens_last (t : GoString) (h : t.getLast? ≠ some (chr '/')) :
    (escapeTokens t).getLast? ≠ some (chr '/') := by
  rcases List.eq_nil_or_concat t with ht | ⟨s, c, ht⟩
  · subst ht
    simp [escapeTokens]
  · subst ht
    have hc : c ≠ chr '/' := by
      intro hc
      apply h
      simp [hc]
    obtain ⟨_, ⟨y, hy, hne⟩⟩ := finalTok_ends c hc
    rw [List.concat_eq_append, escapeTokens_append]
    have h1 : escapeTokens [c] = finalTok c := by simp [escapeTokens]
    rw [h1, List.getLast?_append, hy]
    simpa using hne

theorem Trim_head (s : GoString) (c : Byte) : (Trim s [c]).head? ≠ some c := by
  intro h
  unfold Trim at h
  set p : Byte → Bool := fun x => decide (x ∈ [c]) with hp
  have hpre : (s.dropWhile p).rdropWhile p <+: s.dropWhile p := List.rdropWhile_prefix p _
  have hd := List.head?_dropWhile_not p s
  obtain ⟨u, hu⟩ := hpre
  cases hr : (s.dropWhile p).rdropWhile p with
  | nil => rw [hr] at h; simp at h
  | cons a r =>
    rw [hr] at h hu
    simp only [List.head?_cons, Option.some.injEq] at h
    subst h
    rw [← hu] at hd
    simp [hp] at hd

theorem Trim_last (s : GoString) (c : Byte) : (Trim s [c]).getLast? ≠ some c := by
  intro h
  unfold Trim at h
  set p : Byte → Bool := fun x => decide (x ∈ [c]) with hp
  by_cases hl : (s.dropWhile p).rdropWhile p = []
  · rw [hl] at h; simp at h
  · have hn := List.rdropWhile_last_not p (s.dropWhile p) hl
    rw [List.getLast?_eq_getLast _ hl] at h
    simp only [Option.some.injEq] at h
    rw [h] at hn
    simp [hp] at hn

theorem Trim_eq_self (l : GoString) (c : Byte)
    (h1 : l.head? ≠ some c) (h2 : l.getLast? ≠ some c) : Trim l [c] = l := by
  unfold Trim
  have hd : l.dropWhile (fun x => decide (x ∈ [c])) = l := by
    cases l with
    | nil => rfl
    | cons a r =>
      have : a ≠ c := by intro hac; apply h1; simp [hac]
      simp [List.dropWhile, this]
  rw [hd, List.rdropWhile_eq_self_iff]
  intro hl hp
  apply h2
  rw [List.getLast?_eq_getLast _ hl]
  simp only [List.mem_singleton, decide_eq_true_eq] at hp
  rw [hp]

theorem str_slash : str "/" = [chr '/'] := by decide

theorem EscapePath_eq (name : GoString) :
    EscapePath name = escapeTokens (Trim name [chr '/']) := by
  rw [EscapePath, Replace_QueryEscape, str_slash]

theorem EscapePath_nil : EscapePath [] = [] := by decide

theorem EscapePath_head (name : GoString) : (EscapePath name).head? ≠ some (chr '/') := by
  rw [EscapePath_eq]
  exact escapeTokens_head _ (Trim_head name _)

theorem EscapePath_last (name : GoString) : (EscapePath name).getLast? ≠ some (chr '/') := by
  rw [EscapePath_eq]
  exact escapeTokens_last _ (Trim_last name _)

theorem head_eq_of_starts {c : Byte} {l : GoString} (h : [c] <+: l) : l.head? = some c := by
  obtain ⟨u, hu⟩ := h
  rw [← hu]
  rfl

theorem last_eq_of_ends {c : Byte} {l : GoString} (h : [c] <:+ l) : l.getLast? = some c := by
  obtain ⟨u, hu⟩ := h
  rw [← hu]
  simp

/-! ## Lemmas on the digest length and on base64 -/

theorem bytesBE_length (n x : Nat) : (bytesBE n x).length = n := by
  induction n with
  | zero => rfl
  | succ n ih => simp [bytesBE, ih]

theorem sha1_length (msg : List Byte) : (sha1 msg).length = 20 := by
  simp [sha1, bytesBE_length]

theorem hmacSha1_length (key msg : List Byte) : (hmacSha1 key msg).length = 20 := by
  simp [hmacSha1, sha1_length]

theorem byteOf_eq (n : Nat) (a : Byte) (h : n % 256 = a.val) : byteOf n = a := by
  apply Fin.ext
  simp [byteOf, Fin.ofNat, h]

theorem base64Value_char : ∀ i : Fin 64, base64Value (base64Char i.val) = some i.val := by
  decide!

theorem base64Char_ne_pad : ∀ i : Fin 64, base64Char i.val ≠ chr '=' := by
  decide!

theorem base64Value_char_nat (i : Nat) (h : i < 64) : base64Value (base64Char i) = some i :=
  base64Value_char ⟨i, h⟩

theorem base64Char_ne_pad_nat (i : Nat) (h : i < 64) : base64Char i ≠ chr '=' :=
  base64Char_ne_pad ⟨i, h⟩

theorem base64_group3 (a b c : Byte) (fuel : Nat) :
    base64DecodeAux (fuel + 1) (base64Encode [a, b, c]) = some [a, b, c] := by
  have ha := a.isLt
  have hb := b.isLt
  have hc := c.isLt
  simp only [base64Encode, base64DecodeAux]
  rw [if_neg, if_neg]
  · rw [base64Value_char_nat _ (Nat.mod_lt _ (by decide)),
      base64Value_char_nat _ (Nat.mod_lt _ (by decide)),
      base64Value_char_nat _ (Nat.mod_lt _ (by decide)),
      base64Value_char_nat _ (Nat.mod_lt _ (by decide))]
    simp only [Option.some.injEq, List.cons.injEq, and_true]
    refine ⟨byteOf_eq _ _ ?_, byteOf_eq _ _ ?_, byteOf_eq _ _ ?_⟩ <;> omega
  · exact base64Char_ne_pad_nat _ (Nat.mod_lt _ (by decide))
  · intro h
    exact base64Char_ne_pad_nat _ (Nat.mod_lt _ (by decide)) h.1

theorem base64_group1 (a : Byte) (fuel : Nat) :
    base64DecodeAux (fuel + 1) (base64Encode [a]) = some [a] := by
  have ha := a.isLt
  simp only [base64Encode, base64DecodeAux]
  simp only [and_self, if_true]
  rw [base64Value_char_nat _ (Nat.mod_lt _ (by decide)),
    base64Value_char_nat _ (Nat.mod_lt _ (by decide))]
  simp only [Option.some.injEq, List.cons.injEq, and_true]
  refine byteOf_eq _ _ ?_
  omega

theorem base64_group2 (a b : Byte) (fuel : Nat) :
    base64DecodeAux (fuel + 1) (base64Encode [a, b]) = some [a, b] := by
  have ha := a.isLt
  have hb := b.isLt
  simp only [base64Encode, base64DecodeAux]
  rw [if_neg]
  · simp only [if_true]
    rw [base64Value_char_nat _ (Nat.mod_lt _ (by decide)),
      base64Value_char_nat _ (Nat.mod_lt _ (by decide)),
      base64Value_char_nat _ (Nat.mod_lt _ (by decide))]
    simp only [Option.some.injEq, List.cons.injEq, and_true]
    refine ⟨byteOf_eq _ _ ?_, byteOf_eq _ _ ?_⟩ <;> omega
  · intro h
    exact base64Char_ne_pad_nat _ (Nat.mod_lt _ (by decide)) h.1

theorem base64_step (a b c : Byte) (rest : List Byte) (fuel : Nat) (hr : rest ≠ []) :
    base64DecodeAux (fuel + 1) (base64Encode (a :: b :: c :: rest))
      = (base64DecodeAux fuel (base64Encode rest)).map (fun t => a :: b :: c :: t) := by
  have ha := a.isLt
  have hb := b.isLt
  have hc := c.isLt
  obtain ⟨x, tl, hx⟩ : ∃ x tl, base64Encode rest = x :: tl := by
    match rest, hr with
    | [p], _ => exact ⟨_, _, rfl⟩
    | [p, q], _ => exact ⟨_, _, rfl⟩
    | p :: q :: r :: rest, _ => exact ⟨_, _, rfl⟩
  rw [base64Encode, hx]
  simp only [base64DecodeAux]
  rw [base64Value_char_nat _ (Nat.mod_lt _ (by decide)),
    base64Value_char_nat _ (Nat.mod_lt _ (by decide)),
    base64Value_char_nat _ (Nat.mod_lt _ (by decide)),
    base64Value_char_nat _ (Nat.mod_lt _ (by decide))]
  simp only
  have e1 : byteOf ((((a.val * 65536 + b.val * 256 + c.val) / 262144 % 64) * 262144
      + ((a.val * 65536 + b.val * 256 + c.val) / 4096 % 64) * 4096
      + ((a.val * 65536 + b.val * 256 + c.val) / 64 % 64) * 64
      + (a.val * 65536 + b.val * 256 + c.val) % 64) / 65536) = a :=
    byteOf_eq _ _ (by omega)
  have e2 : byteOf ((((a.val * 65536 + b.val * 256 + c.val) / 262144 % 64) * 262144
      + ((a.val * 65536 + b.val * 256 + c.val) / 4096 % 64) * 4096
      + ((a.val * 65536 + b.val * 256 + c.val) / 64 % 64) * 64
      + (a.val * 65536 + b.val * 256 + c.val) % 64) / 256) = b :=
    byteOf_eq _ _ (by omega)
  have e3 : byteOf ((((a.val * 65536 + b.val * 256 + c.val) / 262144 % 64) * 262144
      + ((a.val * 65536 + b.val * 256 + c.val) / 4096 % 64) * 4096
      + ((a.val * 65536 + b.val * 256 + c.val) / 64 % 64) * 64
      + (a.val * 65536 + b.val * 256 + c.val) % 64)) = c :=
    byteOf_eq _ _ (by omega)
  rw [e1, e2, e3]

theorem base64DecodeAux_encode (fuel : Nat) :
    ∀ x : List Byte, x.length ≤ 3 * fuel → base64DecodeAux fuel (base64Encode x) = some x := by
  induction fuel with
  | zero =>
    intro x hx
    have : x = [] := List.eq_nil_of_length_eq_zero (by omega)
    subst this
    rfl
  | succ fuel ih =>
    intro x hx
    match x, hx with
    | [], _ => rfl
    | [a], _ => exact base64_group1 a fuel
    | [a, b], _ => exact base64_group2 a b fuel
    | [a, b, c], _ => exact base64_group3 a b c fuel
    | a :: b :: c :: d :: rest, hx =>
      rw [base64_step a b c (d :: rest) fuel (by simp), ih (d :: rest) (by simp at hx ⊢; omega)]
      rfl

theorem base64Encode_length (x : List Byte) : x.length ≤ 3 * (base64Encode x).length := by
  induction x using base64Encode.induct with
  | case1 => simp [base64Encode]
  | case2 a => simp [base64Encode]
  | case3 a b => simp [base64Encode]
  | case4 a b c rest ih => simp [base64Encode] at ih ⊢; omega

theorem base64Decode_encode (x : List Byte) : base64Decode (base64Encode x) = some x :=
  base64DecodeAux_encode _ x (base64Encode_length x)

/-! ## Lemmas on decimal formatting -/

theorem parseDigits_acc (s : GoString) (acc : Nat) :
    parseDigits s acc = acc * 10 ^ s.length + parseDigits s 0 := by
  induction s generalizing acc with
  | nil => simp [parseDigits]
  | cons c s ih =>
    simp only [parseDigits, List.length_cons]
    rw [ih (acc * 10 + (c.val - 48)), ih (0 * 10 + (c.val - 48))]
    ring

theorem digit_val (d : Nat) (h : d < 10) : (Fin.ofNat (48 + d) : Byte).val - 48 = d := by
  have : (Fin.ofNat (48 + d) : Byte).val = 48 + d := by
    simp only [Fin.ofNat, Fin.val_mk]
    omega
  omega

theorem digit_ne_minus (d : Nat) (h : d < 10) : (Fin.ofNat (48 + d) : Byte) ≠ chr '-' := by
  intro heq
  have h1 : (Fin.ofNat (48 + d) : Byte).val = 48 + d := by
    simp only [Fin.ofNat, Fin.val_mk]
    omega
  have h2 : (chr '-').val = 45 := by decide
  rw [heq, h2] at h1
  omega

theorem natDigits_spec (fuel : Nat) :
    ∀ n acc, n < fuel →
      parseDigits (natDigits fuel n acc) 0 = n * 10 ^ acc.length + parseDigits acc 0 ∧
      ∃ d rest, d < 10 ∧ natDigits fuel n acc = Fin.ofNat (48 + d) :: rest := by
  induction fuel with
  | zero => intro n acc h; omega
  | succ fuel ih =>
    intro n acc h
    by_cases h10 : n / 10 = 0
    · have hn : n % 10 = n := by omega
      simp only [natDigits, h10, if_true]
      refine ⟨?_, n % 10, acc, by omega, rfl⟩
      rw [parseDigits, parseDigits_acc, digit_val _ (by omega), hn]
      ring
    · simp only [natDigits, h10, if_false]
      obtain ⟨hv, hd⟩ := ih (n / 10) (Fin.ofNat (48 + n % 10) :: acc) (by omega)
      refine ⟨?_, hd⟩
      rw [hv, parseDigits, parseDigits_acc, digit_val _ (by omega), List.length_cons]
      have : n = 10 * (n / 10) + n % 10 := (Nat.div_add_mod n 10).symm
      generalize n / 10 = q at *
      generalize n % 10 = r at *
      subst this
      ring

theorem parseDigits_formatNat (n : Nat) : parseDigits (formatNat n) 0 = n := by
  have := (natDigits_spec (n + 1) n [] (by omega)).1
  simpa [formatNat, parseDigits] using this

theorem parseInt_formatInt (i : Int) : parseInt (formatInt i) = i := by
  cases i with
  | ofNat n =>
    obtain ⟨d, rest, hd, heq⟩ := (natDigits_spec (n + 1) n [] (by omega)).2
    have hv := parseDigits_formatNat n
    simp only [formatInt, formatNat] at hv ⊢
    rw [heq] at hv ⊢
    simp only [parseInt, digit_ne_minus d hd, if_false]
    rw [hv]
    rfl
  | negSucc n =>
    simp only [formatInt, parseInt, if_true, parseDigits_formatNat]
    rfl

/-! ## Lemmas on the signer -/

theorem getResourcePath_eq (b : Bucket) (path : GoString) :
    b.getResourcePath path
      = str "/" ++ b.cos.appID ++ str "/" ++ b.name ++ str "/" ++ path := by
  simp [Bucket.getResourcePath, Join]

theorem wrapInt64_of_range (x : Int) (h1 : -9223372036854775808 ≤ x)
    (h2 : x < 9223372036854775808) : wrapInt64 x = x := by
  unfold wrapInt64
  omega

/-! ## Lemmas on the slice upload -/

theorem zeroUploadPartResult_eq (p : Option uploadPartResult) :
    zeroUploadPartResult p = zeroPart := by
  cases p <;> rfl

theorem params_get_Set_same (m : params) (k v : GoString) : (m.Set k v).get k = v := by
  simp [params.Set, params.get]

theorem find_filter_ne (l : List (GoString × GoString)) (k k' : GoString) (h : k' ≠ k) :
    (l.filter (fun p => decide (p.1 ≠ k))).find? (fun p => decide (p.1 = k'))
      = l.find? (fun p => decide (p.1 = k')) := by
  induction l with
  | nil => rfl
  | cons a l ih =>
    by_cases h1 : a.1 = k
    · have h2 : ¬ a.1 = k' := fun h3 => h (h3.symm.trans h1)
      rw [List.filter_cons_of_neg (by simpa using h1), List.find?_cons_of_neg _ (by simpa using h2)]
      exact ih
    · rw [List.filter_cons_of_pos (by simpa using h1)]
      by_cases h2 : a.1 = k'
      · rw [List.find?_cons_of_pos _ (by simpa using h2), List.find?_cons_of_pos _ (by simpa using h2)]
      · rw [List.find?_cons_of_neg _ (by simpa using h2), List.find?_cons_of_neg _ (by simpa using h2)]
        exact ih

theorem params_get_Set_other (m : params) (k k' v : GoString) (h : k' ≠ k) :
    (m.Set k v).get k' = m.get k' := by
  have h2 : ¬ k = k' := fun h3 => h h3.symm
  simp only [params.Set, params.get, List.find?, h2, decide_False]
  rw [find_filter_ne _ _ _ h]

theorem fileRead_spec (raw : Except GoError (List Byte)) (len : Nat) (hlen : 0 < len) :
    ((fileRead raw len).1 = [] ∧ (fileRead raw len).2 ≠ none) ∨
    ((fileRead raw len).1 ≠ [] ∧ (fileRead raw len).2 = none) := by
  cases raw with
  | error e => left; simp [fileRead]
  | ok bs =>
    by_cases h : bs.take len = []
    · left; simp [fileRead, h, hlen]
    · right; simp [fileRead, h]

theorem fileRead_length (raw : Except GoError (List Byte)) (len : Nat) :
    (fileRead raw len).1.length ≤ len := by
  cases raw with
  | error e => simp [fileRead]
  | ok bs =>
    by_cases h : bs.take len = [] ∧ 0 < len
    · simp [fileRead, h]
    · simp only [fileRead, h, if_false, List.length_take]
      omega

theorem chunkIter_exit (f : File) (fs : LocalFile) (srv : Server) (size : Int) (L : Nat)
    (session : GoString) (s : LoopState) (h : ¬ size > s.offset) :
    chunkIter f fs srv size L session s
      = Iter.done ⟨none, session, some GoError.ErrUnexpectedEOF⟩ s.calls s.reads := by
  simp [chunkIter, h]

theorem chunkIter_readError (f : File) (fs : LocalFile) (srv : Server) (size : Int) (L : Nat)
    (session : GoString) (s : LoopState) (h : size > s.offset) (e : GoError)
    (he : (chunkRead fs L s).2 = some e) (hne : e ≠ GoError.EOF) :
    chunkIter f fs srv size L session s
      = Iter.done ⟨none, session, some e⟩ s.calls (s.reads ++ [chunkRead fs L s]) := by
  simp [chunkIter, h, he, hne]

theorem chunkIter_eof (f : File) (fs : LocalFile) (srv : Server) (size : Int) (L : Nat)
    (session : GoString) (s : LoopState) (h : size > s.offset)
    (he : (chunkRead fs L s).2 = some GoError.EOF) (hb : (chunkRead fs L s).1 = []) :
    chunkIter f fs srv size L session s
      = Iter.done ⟨none, session, some GoError.ErrUnexpectedEOF⟩ s.calls
          (s.reads ++ [chunkRead fs L s]) := by
  simp [chunkIter, h, he, hb]

theorem chunkIter_callError (f : File) (fs : LocalFile) (srv : Server) (size : Int) (L : Nat)
    (session : GoString) (s : LoopState) (h : size > s.offset)
    (he : (chunkRead fs L s).2 = none) (hb : (chunkRead fs L s).1 ≠ []) (e : GoError)
    (hr : srv.part s.calls.length (chunkRequest f s (chunkRead fs L s).1)
        (zeroUploadPartResult s.part) = Except.error e) :
    chunkIter f fs srv size L session s
      = Iter.done ⟨none, session, some e⟩
          (s.calls ++ [⟨chunkRequest f s (chunkRead fs L s).1, Except.error e⟩])
          (s.reads ++ [chunkRead fs L s]) := by
  have hl : 0 < (chunkRead fs L s).1.length := List.length_pos.mpr hb
  simp [chunkIter, h, he, hl, hr]

theorem chunkIter_complete (f : File) (fs : LocalFile) (srv : Server) (size : Int) (L : Nat)
    (session : GoString) (s : LoopState) (h : size > s.offset)
    (he : (chunkRead fs L s).2 = none) (hb : (chunkRead fs L s).1 ≠ []) (part : uploadPartResult)
    (hr : srv.part s.calls.length (chunkRequest f s (chunkRead fs L s).1)
        (zeroUploadPartResult s.part) = Except.ok part)
    (hu : part.URL ≠ []) :
    chunkIter f fs srv size L session s
      = Iter.done ⟨some part.toUploadResult, [], none⟩
          (s.calls ++ [⟨chunkRequest f s (chunkRead fs L s).1, Except.ok part⟩])
          (s.reads ++ [chunkRead fs L s]) := by
  have hl : 0 < (chunkRead fs L s).1.length := List.length_pos.mpr hb
  simp [chunkIter, h, he, hl, hr, hu]

theorem chunkIter_corrupt (f : File) (fs : LocalFile) (srv : Server) (size : Int) (L : Nat)
    (session : GoString) (s : LoopState) (h : size > s.offset)
    (he : (chunkRead fs L s).2 = none) (hb : (chunkRead fs L s).1 ≠ []) (part : uploadPartResult)
    (hr : srv.part s.calls.length (chunkRequest f s (chunkRead fs L s).1)
        (zeroUploadPartResult s.part) = Except.ok part)
    (hu : part.URL = []) (hs : part.Session ≠ session) :
    chunkIter f fs srv size L session s
      = Iter.done ⟨none, [], some sessionCorrupt⟩
          (s.calls ++ [⟨chunkRequest f s (chunkRead fs L s).1, Except.ok part⟩])
          (s.reads ++ [chunkRead fs L s]) := by
  have hl : 0 < (chunkRead fs L s).1.length := List.length_pos.mpr hb
  simp [chunkIter, h, he, hl, hr, hu, hs]

theorem chunkIter_continue (f : File) (fs : LocalFile) (srv : Server) (size : Int) (L : Nat)
    (session : GoString) (s : LoopState) (h : size > s.offset)
    (he : (chunkRead fs L s).2 = none) (hb : (chunkRead fs L s).1 ≠ []) (part : uploadPartResult)
    (hr : srv.part s.calls.length (chunkRequest f s (chunkRead fs L s).1)
        (zeroUploadPartResult s.part) = Except.ok part)
    (hu : part.URL = []) (hs : part.Session = session) :
    chunkIter f fs srv size L session s
      = Iter.next ⟨s.offset + (chunkRead fs L s).1.length, chunkBody s (chunkRead fs L s).1,
          some part,
          s.calls ++ [⟨chunkRequest f s (chunkRead fs L s).1, Except.ok part⟩],
          s.reads ++ [chunkRead fs L s]⟩ := by
  have hl : 0 < (chunkRead fs L s).1.length := List.length_pos.mpr hb
  simp [chunkIter, h, he, hl, hr, hu, hs]
  rfl

theorem chunkIter_cases (f : File) (fs : LocalFile) (srv : Server) (size : Int) (L : Nat)
    (session : GoString) (s : LoopState) (hL : 0 < L) :
    (¬ size > s.offset ∧ chunkIter f fs srv size L session s
        = Iter.done ⟨none, session, some GoError.ErrUnexpectedEOF⟩ s.calls s.reads) ∨
    (size > s.offset ∧ ∃ e, (chunkRead fs L s).2 = some e ∧ e ≠ GoError.EOF ∧
      chunkIter f fs srv size L session s
        = Iter.done ⟨none, session, some e⟩ s.calls (s.reads ++ [chunkRead fs L s])) ∨
    (size > s.offset ∧ chunkRead fs L s = ([], some GoError.EOF) ∧
      chunkIter f fs srv size L session s
        = Iter.done ⟨none, session, some GoError.ErrUnexpectedEOF⟩ s.calls
            (s.reads ++ [chunkRead fs L s])) ∨
    (size > s.offset ∧ readOK (chunkRead fs L s) ∧ ∃ e,
      srv.part s.calls.length (chunkRequest f s (chunkRead fs L s).1)
        (zeroUploadPartResult s.part) = Except.error e ∧
      chunkIter f fs srv size L session s
        = Iter.done ⟨none, session, some e⟩
            (s.calls ++ [⟨chunkRequest f s (chunkRead fs L s).1, Except.error e⟩])
            (s.reads ++ [chunkRead fs L s])) ∨
    (size > s.offset ∧ readOK (chunkRead fs L s) ∧ ∃ part,
      srv.part s.calls.length (chunkRequest f s (chunkRead fs L s).1)
        (zeroUploadPartResult s.part) = Except.ok part ∧
      part.URL ≠ [] ∧
      chunkIter f fs srv size L session s
        = Iter.done ⟨some part.toUploadResult, [], none⟩
            (s.calls ++ [⟨chunkRequest f s (chunkRead fs L s).1, Except.ok part⟩])
            (s.reads ++ [chunkRead fs L s])) ∨
    (size > s.offset ∧ readOK (chunkRead fs L s) ∧ ∃ part,
      srv.part s.calls.length (chunkRequest f s (chunkRead fs L s).1)
        (zeroUploadPartResult s.part) = Except.ok part ∧
      part.URL = [] ∧ part.Session ≠ session ∧
      chunkIter f fs srv size L session s
        = Iter.done ⟨none, [], some sessionCorrupt⟩
            (s.calls ++ [⟨chunkRequest f s (chunkRead fs L s).1, Except.ok part⟩])
            (s.reads ++ [chunkRead fs L s])) ∨
    (size > s.offset ∧ readOK (chunkRead fs L s) ∧ ∃ part,
      srv.part s.calls.length (chunkRequest f s (chunkRead fs L s).1)
        (zeroUploadPartResult s.part) = Except.ok part ∧
      part.URL = [] ∧ part.Session = session ∧
      chunkIter f fs srv size L session s
        = Iter.next ⟨s.offset + (chunkRead fs L s).1.length,
            chunkBody s (chunkRead fs L s).1, some part,
            s.calls ++ [⟨chunkRequest f s (chunkRead fs L s).1, Except.ok part⟩],
            s.reads ++ [chunkRead fs L s]⟩) := by
  by_cases h : size > s.offset
  · right
    rcases fileRead_spec (fs.read s.reads.length s.offset L) L hL with ⟨hb, he⟩ | ⟨hb, he⟩
    · obtain ⟨e, he'⟩ := Option.ne_none_iff_exists'.mp he
      by_cases hE : e = GoError.EOF
      · right; left
        subst hE
        exact ⟨h, Prod.ext hb he', chunkIter_eof f fs srv size L session s h he' hb⟩
      · left
        exact ⟨h, e, he', hE, chunkIter_readError f fs srv size L session s h e he' hE⟩
    · right; right
      have hok : readOK (chunkRead fs L s) := ⟨he, hb⟩
      cases hr : srv.part s.calls.length (chunkRequest f s (chunkRead fs L s).1)
        (zeroUploadPartResult s.part) with
      | error e =>
        left
        exact ⟨h, hok, e, rfl, chunkIter_callError f fs srv size L session s h he hb e hr⟩
      | ok part =>
        right
        by_cases hu : part.URL = []
        · right
          by_cases hs : part.Session = session
          · right
            exact ⟨h, hok, part, rfl, hu, hs,
              chunkIter_continue f fs srv size L session s h he hb part hr hu hs⟩
          · left
            exact ⟨h, hok, part, rfl, hu, hs,
              chunkIter_corrupt f fs srv size L session s h he hb part hr hu hs⟩
        · left
          exact ⟨h, hok, part, rfl, hu,
            chunkIter_complete f fs srv size L session s h he hb part hr hu⟩
  · left
    exact ⟨h, chunkIter_exit f fs srv size L session s h⟩

theorem chunkIter_next_offset (f : File) (fs : LocalFile) (srv : Server) (size : Int) (L : Nat)
    (session : GoString) (s s' : LoopState) (hL : 0 < L)
    (h : chunkIter f fs srv size L session s = Iter.next s') :
    size > s.offset ∧ s.offset + 1 ≤ s'.offset := by
  rcases chunkIter_cases f fs srv size L session s hL with
    ⟨_, h1⟩ | ⟨_, _, _, _, h1⟩ | ⟨_, _, h1⟩ | ⟨_, _, _, _, h1⟩ | ⟨_, _, _, _, _, h1⟩ |
    ⟨_, _, _, _, _, _, h1⟩ | ⟨hs, hok, part, _, _, _, h1⟩
  all_goals rw [h1] at h
  all_goals first | exact Iter.noConfusion h | skip
  injection h with h
  subst h
  refine ⟨hs, ?_⟩
  have : 0 < (chunkRead fs L s).1.length := List.length_pos.mpr hok.2
  simp only
  omega

theorem chunkLoop_total (f : File) (fs : LocalFile) (srv : Server) (size : Int) (L : Nat)
    (session : GoString) (hL : 0 < L) :
    ∀ fuel s, (size - s.offset).toNat ≤ fuel →
      ∃ r, chunkLoop f fs srv size L session fuel s = some r := by
  intro fuel
  induction fuel with
  | zero =>
    intro s hs
    cases hi : chunkIter f fs srv size L session s with
    | done out calls reads => exact ⟨(out, calls, reads), by simp [chunkLoop, hi]⟩
    | next s' =>
      have := chunkIter_next_offset f fs srv size L session s s' hL hi
      omega
  | succ fuel ih =>
    intro s hs
    cases hi : chunkIter f fs srv size L session s with
    | done out calls reads => exact ⟨(out, calls, reads), by simp [chunkLoop, hi]⟩
    | next s' =>
      have hn := chunkIter_next_offset f fs srv size L session s s' hL hi
      obtain ⟨r, hr⟩ := ih s' (by omega)
      exact ⟨r, by simp [chunkLoop, hi, hr]⟩

theorem chunkLoop_induct (f : File) (fs : LocalFile) (srv : Server) (size : Int) (L : Nat)
    (session : GoString)
    (P : LoopState → Outcome × List Exchange × List (List Byte × Option GoError) → Prop)
    (hdone : ∀ s out calls reads,
      chunkIter f fs srv size L session s = Iter.done out calls reads → P s (out, calls, reads))
    (hnext : ∀ s s' res,
      chunkIter f fs srv size L session s = Iter.next s' → P s' res → P s res) :
    ∀ fuel s res, chunkLoop f fs srv size L session fuel s = some res → P s res := by
  intro fuel
  induction fuel with
  | zero =>
    intro s res h
    cases hi : chunkIter f fs srv size L session s with
    | done out calls reads =>
      simp only [chunkLoop, hi, Option.some.injEq] at h
      subst h
      exact hdone s out calls reads hi
    | next s' => simp [chunkLoop, hi] at h
  | succ fuel ih =>
    intro s res h
    cases hi : chunkIter f fs srv size L session s with
    | done out calls reads =>
      simp only [chunkLoop, hi, Option.some.injEq] at h
      subst h
      exact hdone s out calls reads hi
    | next s' =>
      simp only [chunkLoop, hi] at h
      exact hnext s s' res hi (ih s' res h)

theorem forall_mem_snoc {α : Type} (P : α → Prop) (l : List α) (a : α)
    (hl : ∀ x ∈ l, P x) (ha : P a) : ∀ x ∈ l ++ [a], P x := by
  intro x hx
  rcases List.mem_append.mp hx with h | h
  · exact hl x h
  · rw [List.mem_singleton.mp h]
    exact ha

theorem chunkLoop_ends (f : File) (fs : LocalFile) (srv : Server) (size : Int) (L : Nat)
    (session : GoString) (hL : 0 < L) :
    ∀ fuel s res, chunkLoop f fs srv size L session fuel s = some res →
      (∀ ex ∈ s.calls, ex.continues session) → (∀ rd ∈ s.reads, readOK rd) →
      loopEnds session res.1 res.2.1 res.2.2 := by
  apply chunkLoop_induct f fs srv size L session
    (fun s res => (∀ ex ∈ s.calls, ex.continues session) → (∀ rd ∈ s.reads, readOK rd) →
      loopEnds session res.1 res.2.1 res.2.2)
  · intro s out calls reads hi hc hr
    rcases chunkIter_cases f fs srv size L session s hL with
      ⟨_, h1⟩ | ⟨_, e, he, hne, h1⟩ | ⟨_, hrd, h1⟩ | ⟨_, hok, e, hrep, h1⟩ |
      ⟨_, hok, part, hrep, hu, h1⟩ | ⟨_, hok, part, hrep, hu, hs, h1⟩ |
      ⟨_, _, _, _, _, _, h1⟩
    all_goals rw [h1] at hi
    all_goals first | exact Iter.noConfusion hi | skip
    all_goals injection hi with ho hcs hrs
    all_goals subst ho hcs hrs
    · exact Or.inl ⟨hc, hr, rfl⟩
    · refine Or.inr (Or.inr (Or.inl ⟨s.reads, (chunkRead fs L s).1, e, ?_, hne, hr, hc, rfl⟩))
      simp only [List.append_cancel_left_eq, List.cons.injEq, and_true]
      exact Prod.ext rfl he
    · refine Or.inr (Or.inl ⟨s.reads, ?_, hr, hc, rfl⟩)
      simp only [hrd]
    · exact Or.inr (Or.inr (Or.inr ⟨s.calls, _, rfl, hc, forall_mem_snoc _ _ _ hr hok,
        Or.inl ⟨e, rfl, rfl⟩⟩))
    · exact Or.inr (Or.inr (Or.inr ⟨s.calls, _, rfl, hc, forall_mem_snoc _ _ _ hr hok,
        Or.inr (Or.inl ⟨part, rfl, hu, rfl⟩)⟩))
    · exact Or.inr (Or.inr (Or.inr ⟨s.calls, _, rfl, hc, forall_mem_snoc _ _ _ hr hok,
        Or.inr (Or.inr ⟨part, rfl, hu, hs, rfl⟩)⟩))
  · intro s s' res hi ih hc hr
    rcases chunkIter_cases f fs srv size L session s hL with
      ⟨_, h1⟩ | ⟨_, _, _, _, h1⟩ | ⟨_, _, h1⟩ | ⟨_, _, _, _, h1⟩ | ⟨_, _, _, _, _, h1⟩ |
      ⟨_, _, _, _, _, _, h1⟩ | ⟨_, hok, part, hrep, hu, hs, h1⟩
    all_goals rw [h1] at hi
    all_goals first | exact Iter.noConfusion hi | skip
    injection hi with hi
    subst hi
    exact ih (forall_mem_snoc _ _ _ hc ⟨part, rfl, hu, hs⟩) (forall_mem_snoc _ _ _ hr hok)

theorem split_snoc {α : Type} (pre post old : List α) (ex new : α)
    (h : old ++ [new] = pre ++ ex :: post) :
    (post = [] ∧ pre = old ∧ ex = new) ∨ (∃ post', post = post' ++ [new] ∧ old = pre ++ ex :: post') := by
  rcases List.eq_nil_or_concat post with hp | ⟨post', z, hp⟩
  · subst hp
    left
    have h2 : old ++ [new] = pre ++ [ex] := h
    have h3 := List.append_inj' h2 rfl
    refine ⟨rfl, h3.1.symm, ?_⟩
    simpa using h3.2.symm
  · subst hp
    right
    rw [List.concat_eq_append] at h ⊢
    have h2 : old ++ [new] = (pre ++ ex :: post') ++ [z] := by simpa using h
    have h3 := List.append_inj' h2 rfl
    have hz : new = z := by simpa using h3.2
    exact ⟨post', by rw [hz], h3.1⟩

theorem sent_snoc (calls : List Exchange) (ex : Exchange) :
    sent (calls ++ [ex]) = sent calls + ex.req.len := by
  simp [sent]

theorem chunkBody_get_op (s : LoopState) (b : List Byte) :
    (chunkBody s b).get (str "op") = s.body.get (str "op") := by
  rw [chunkBody, params_get_Set_other _ _ _ _ (by decide),
    params_get_Set_other _ _ _ _ (by decide)]

theorem chunkBody_get_session (s : LoopState) (b : List Byte) :
    (chunkBody s b).get (str "session") = s.body.get (str "session") := by
  rw [chunkBody, params_get_Set_other _ _ _ _ (by decide),
    params_get_Set_other _ _ _ _ (by decide)]

theorem chunkBody_get_offset (s : LoopState) (b : List Byte) :
    (chunkBody s b).get (str "offset") = formatInt s.offset := by
  rw [chunkBody, params_get_Set_same]

theorem chunkBody_get_sha (s : LoopState) (b : List Byte) :
    (chunkBody s b).get (str "sha") = sha1sum b := by
  rw [chunkBody, params_get_Set_other _ _ _ _ (by decide), params_get_Set_same]

theorem chunkSpec_new (f : File) (fs : LocalFile) (srv : Server) (size : Int) (L : Nat)
    (session : GoString) (o0 : Int) (s : LoopState)
    (hinv : loopInv f fs srv size L session o0 s) (hsz : size > s.offset)
    (hok : readOK (chunkRead fs L s)) :
    chunkSpec f fs srv size L session o0 s.calls
      ⟨chunkRequest f s (chunkRead fs L s).1,
        srv.part s.calls.length (chunkRequest f s (chunkRead fs L s).1)
        (zeroUploadPartResult s.part)⟩ := by
  obtain ⟨hop, hse, hoff, hlen, _⟩ := hinv
  have hrd : fileRead (fs.read s.calls.length (o0 + sent s.calls) L) L = chunkRead fs L s := by
    rw [chunkRead, hlen, hoff]
  unfold chunkSpec
  rw [hrd]
  refine ⟨by omega, rfl, rfl, hok.2, ?_, ?_, ?_, ?_, ?_⟩
  rotate_right
  · simp only [zeroUploadPartResult_eq]
  · simp only [chunkRequest]; rw [chunkBody_get_op, hop]
  · simp only [chunkRequest]; rw [chunkBody_get_session, hse]
  · simp only [chunkRequest]; rw [chunkBody_get_offset, hoff]
  · simp only [chunkRequest]; rw [chunkBody_get_sha]

theorem chunkSpec_snoc (f : File) (fs : LocalFile) (srv : Server) (size : Int) (L : Nat)
    (session : GoString) (o0 : Int) (s : LoopState)
    (hinv : loopInv f fs srv size L session o0 s) (hsz : size > s.offset)
    (hok : readOK (chunkRead fs L s)) (reply : Except GoError uploadPartResult)
    (hrep : srv.part s.calls.length (chunkRequest f s (chunkRead fs L s).1)
        (zeroUploadPartResult s.part) = reply) :
    ∀ pre ex post,
      s.calls ++ [⟨chunkRequest f s (chunkRead fs L s).1, reply⟩] = pre ++ ex :: post →
      chunkSpec f fs srv size L session o0 pre ex := by
  intro pre ex post h
  rcases split_snoc pre post s.calls ex _ h with ⟨_, hpre, hex⟩ | ⟨post', _, hold⟩
  · subst hpre hex
    rw [← hrep]
    exact chunkSpec_new f fs srv size L session o0 s hinv hsz hok
  · exact hinv.2.2.2.2 pre ex post' hold

theorem loopInv_next (f : File) (fs : LocalFile) (srv : Server) (size : Int) (L : Nat)
    (session : GoString) (o0 : Int) (hL : 0 < L) (s s' : LoopState)
    (hi : chunkIter f fs srv size L session s = Iter.next s')
    (hinv : loopInv f fs srv size L session o0 s) :
    loopInv f fs srv size L session o0 s' := by
  rcases chunkIter_cases f fs srv size L session s hL with
    ⟨_, h1⟩ | ⟨_, _, _, _, h1⟩ | ⟨_, _, h1⟩ | ⟨_, _, _, _, h1⟩ | ⟨_, _, _, _, _, h1⟩ |
    ⟨_, _, _, _, _, _, h1⟩ | ⟨hsz, hok, part, hrep, hu, hs, h1⟩
  all_goals rw [h1] at hi
  all_goals first | exact Iter.noConfusion hi | skip
  injection hi with hi
  subst hi
  refine ⟨?_, ?_, ?_, ?_, ?_⟩
  · simp only; rw [chunkBody_get_op, hinv.1]
  · simp only; rw [chunkBody_get_session, hinv.2.1]
  · simp only [sent_snoc, chunkRequest, Request.len, Option.getD_some]
    rw [hinv.2.2.1]
    push_cast
    omega
  · simp [hinv.2.2.2.1]
  · exact chunkSpec_snoc f fs srv size L session o0 s hinv hsz hok _ hrep

theorem chunkLoop_requests (f : File) (fs : LocalFile) (srv : Server) (size : Int) (L : Nat)
    (session : GoString) (o0 : Int) (hL : 0 < L) :
    ∀ fuel s res, chunkLoop f fs srv size L session fuel s = some res →
      loopInv f fs srv size L session o0 s →
      ∀ pre ex post, res.2.1 = pre ++ ex :: post →
        chunkSpec f fs srv size L session o0 pre ex := by
  apply chunkLoop_induct f fs srv size L session
    (fun s res => loopInv f fs srv size L session o0 s →
      ∀ pre ex post, res.2.1 = pre ++ ex :: post →
        chunkSpec f fs srv size L session o0 pre ex)
  · intro s out calls reads hi hinv
    rcases chunkIter_cases f fs srv size L session s hL with
      ⟨_, h1⟩ | ⟨_, e, he, hne, h1⟩ | ⟨_, hrd, h1⟩ | ⟨hsz, hok, e, hrep, h1⟩ |
      ⟨hsz, hok, part, hrep, hu, h1⟩ | ⟨hsz, hok, part, hrep, hu, hs, h1⟩ |
      ⟨_, _, _, _, _, _, h1⟩
    all_goals rw [h1] at hi
    all_goals first | exact Iter.noConfusion hi | skip
    all_goals injection hi with ho hcs hrs
    all_goals subst ho hcs hrs
    · exact hinv.2.2.2.2
    · exact hinv.2.2.2.2
    · exact hinv.2.2.2.2
    · exact chunkSpec_snoc f fs srv size L session o0 s hinv hsz hok _ hrep
    · exact chunkSpec_snoc f fs srv size L session o0 s hinv hsz hok _ hrep
    · exact chunkSpec_snoc f fs srv size L session o0 s hinv hsz hok _ hrep
  · intro s s' res hi ih hinv
    exact ih (loopInv_next f fs srv size L session o0 hL s s' hi hinv)

theorem readSpec_old (fs : LocalFile) (size : Int) (L : Nat) (o0 : Int) (calls : List Exchange)
    (new : List Exchange) (pre : List (List Byte × Option GoError))
    (rd : List Byte × Option GoError) (hlen : pre.length ≤ calls.length)
    (h : readSpec fs size L o0 calls pre rd) : readSpec fs size L o0 (calls ++ new) pre rd := by
  unfold readSpec at h ⊢
  rw [List.take_append_of_le_length hlen]
  exact h

theorem readSpec_snoc (f : File) (fs : LocalFile) (srv : Server) (size : Int) (L : Nat)
    (session : GoString) (o0 : Int) (s : LoopState)
    (hinv : loopInv f fs srv size L session o0 s) (hsz : size > s.offset)
    (hrd : ∀ pre rd post, s.reads = pre ++ rd :: post → readSpec fs size L o0 s.calls pre rd)
    (new : List Exchange) :
    ∀ pre rd post, s.reads ++ [chunkRead fs L s] = pre ++ rd :: post →
      readSpec fs size L o0 (s.calls ++ new) pre rd := by
  intro pre rd post h
  rcases split_snoc pre post s.reads rd _ h with ⟨_, hpre, hex⟩ | ⟨post', _, hold⟩
  · subst hpre hex
    unfold readSpec
    rw [hinv.2.2.2.1, List.take_append_of_le_length (le_refl _), List.take_length,
      ← hinv.2.2.1, chunkRead, hinv.2.2.2.1]
    exact ⟨hsz, rfl⟩
  · apply readSpec_old _ _ _ _ _ _ _ _ _ (hrd pre rd post' hold)
    rw [← hinv.2.2.2.1, hold]
    simp

theorem chunkLoop_reads (f : File) (fs : LocalFile) (srv : Server) (size : Int) (L : Nat)
    (session : GoString) (o0 : Int) (hL : 0 < L) :
    ∀ fuel s res, chunkLoop f fs srv size L session fuel s = some res →
      loopInv f fs srv size L session o0 s →
      (∀ pre rd post, s.reads = pre ++ rd :: post → readSpec fs size L o0 s.calls pre rd) →
      ∀ pre rd post, res.2.2 = pre ++ rd :: post → readSpec fs size L o0 res.2.1 pre rd := by
  apply chunkLoop_induct f fs srv size L session
    (fun s res => loopInv f fs srv size L session o0 s →
      (∀ pre rd post, s.reads = pre ++ rd :: post → readSpec fs size L o0 s.calls pre rd) →
      ∀ pre rd post, res.2.2 = pre ++ rd :: post → readSpec fs size L o0 res.2.1 pre rd)
  · intro s out calls reads hi hinv hrd
    rcases chunkIter_cases f fs srv size L session s hL with
      ⟨_, h1⟩ | ⟨hsz, e, he, hne, h1⟩ | ⟨hsz, hrd', h1⟩ | ⟨hsz, hok, e, hrep, h1⟩ |
      ⟨hsz, hok, part, hrep, hu, h1⟩ | ⟨hsz, hok, part, hrep, hu, hs, h1⟩ |
      ⟨_, _, _, _, _, _, h1⟩
    all_goals rw [h1] at hi
    all_goals first | exact Iter.noConfusion hi | skip
    all_goals injection hi with ho hcs hrs
    all_goals subst ho hcs hrs
    · exact hrd
    · have := readSpec_snoc f fs srv size L session o0 s hinv hsz hrd []
      simpa using this
    · have := readSpec_snoc f fs srv size L session o0 s hinv hsz hrd []
      simpa using this
    · exact readSpec_snoc f fs srv size L session o0 s hinv hsz hrd _
    · exact readSpec_snoc f fs srv size L session o0 s hinv hsz hrd _
    · exact readSpec_snoc f fs srv size L session o0 s hinv hsz hrd _
  · intro s s' res hi ih hinv hrd
    have hinv' := loopInv_next f fs srv size L session o0 hL s s' hi hinv
    apply ih hinv'
    rcases chunkIter_cases f fs srv size L session s hL with
      ⟨_, h1⟩ | ⟨_, _, _, _, h1⟩ | ⟨_, _, h1⟩ | ⟨_, _, _, _, h1⟩ | ⟨_, _, _, _, _, h1⟩ |
      ⟨_, _, _, _, _, _, h1⟩ | ⟨hsz, hok, part, hrep, hu, hs, h1⟩
    all_goals rw [h1] at hi
    all_goals first | exact Iter.noConfusion hi | skip
    injection hi with hi
    subst hi
    exact readSpec_snoc f fs srv size L session o0 s hinv hsz hrd _

theorem not_readOK_of_err (rd : List Byte × Option GoError) (e : GoError) (h : rd.2 = some e) :
    ¬ readOK rd := by
  intro hok
  rw [hok.1] at h
  exact Option.noConfusion h

theorem chunkLoop_exhausted (f : File) (fs : LocalFile) (srv : Server) (size : Int) (L : Nat)
    (session : GoString) (o0 : Int) (hL : 0 < L) :
    ∀ fuel s res, chunkLoop f fs srv size L session fuel s = some res →
      loopInv f fs srv size L session o0 s →
      (∀ ex ∈ res.2.1, ex.continues session) → (∀ rd ∈ res.2.2, readOK rd) →
      size ≤ o0 + sent res.2.1 ∧ res.1 = ⟨none, session, some GoError.ErrUnexpectedEOF⟩ := by
  apply chunkLoop_induct f fs srv size L session
    (fun s res => loopInv f fs srv size L session o0 s →
      (∀ ex ∈ res.2.1, ex.continues session) → (∀ rd ∈ res.2.2, readOK rd) →
      size ≤ o0 + sent res.2.1 ∧ res.1 = ⟨none, session, some GoError.ErrUnexpectedEOF⟩)
  · intro s out calls reads hi hinv hc hr
    rcases chunkIter_cases f fs srv size L session s hL with
      ⟨hsz, h1⟩ | ⟨_, e, he, hne, h1⟩ | ⟨_, hrd, h1⟩ | ⟨hsz, hok, e, hrep, h1⟩ |
      ⟨hsz, hok, part, hrep, hu, h1⟩ | ⟨hsz, hok, part, hrep, hu, hs, h1⟩ |
      ⟨_, _, _, _, _, _, h1⟩
    all_goals rw [h1] at hi
    all_goals first | exact Iter.noConfusion hi | skip
    all_goals injection hi with ho hcs hrs
    all_goals subst ho hcs hrs
    · refine ⟨?_, rfl⟩
      have := hinv.2.2.1
      simp only
      omega
    · exact absurd (hr _ (List.mem_append_right _ (List.mem_singleton_self _)))
        (not_readOK_of_err _ e he)
    · exact absurd (hr _ (List.mem_append_right _ (List.mem_singleton_self _)))
        (not_readOK_of_err _ GoError.EOF (by rw [hrd]))
    · obtain ⟨p, hp, _⟩ := hc _ (List.mem_append_right _ (List.mem_singleton_self _))
      exact Except.noConfusion hp
    · obtain ⟨p, hp, hpu, _⟩ := hc _ (List.mem_append_right _ (List.mem_singleton_self _))
      injection hp with hp
      subst hp
      exact absurd hpu hu
    · obtain ⟨p, hp, _, hps⟩ := hc _ (List.mem_append_right _ (List.mem_singleton_self _))
      injection hp with hp
      subst hp
      exact absurd hps hs
  · intro s s' res hi ih hinv
    exact ih (loopInv_next f fs srv size L session o0 hL s s' hi hinv)

theorem effectiveSliceSize_pos (firstPart : uploadFirstPartResult) (sliceSize : Int) :
    0 < (effectiveSliceSize firstPart sliceSize).toNat := by
  unfold effectiveSliceSize SliceSize
  split
  · omega
  · split <;> omega

theorem loopInv_start (f : File) (fs : LocalFile) (srv : Server) (size : Int) (L : Nat)
    (firstPart : uploadFirstPartResult) (session : GoString) :
    loopInv f fs srv size L (adoptedSession firstPart session) firstPart.Offset
      (loopStart firstPart session) := by
  refine ⟨?_, ?_, ?_, rfl, ?_⟩
  · simp only [loopStart]
    rw [params_get_Set_other _ _ _ _ (by decide)]
    rfl
  · simp only [loopStart]
    rw [params_get_Set_same]
  · simp [loopStart, sent]
  · intro pre ex post h
    simp [loopStart] at h

theorem UploadSlice_cases (f : File) (fs : LocalFile) (srv : Server) (bizAttr : GoString)
    (sliceSize : Int) (session : GoString) :
    (∃ e, fs.openErr = some e ∧
      f.UploadSlice fs srv bizAttr sliceSize session
        = some ⟨⟨none, [], some e⟩, none, [], []⟩) ∨
    (∃ e, fs.openErr = none ∧ fs.stat = Except.error e ∧
      f.UploadSlice fs srv bizAttr sliceSize session
        = some ⟨⟨none, [], some e⟩, none, [], []⟩) ∨
    (∃ size e, fs.openErr = none ∧ fs.stat = Except.ok size ∧ fs.copy = Except.error e ∧
      f.UploadSlice fs srv bizAttr sliceSize session
        = some ⟨⟨none, [], some e⟩, none, [], []⟩) ∨
    (∃ size hashed, fs.openErr = none ∧ fs.stat = Except.ok size ∧ fs.copy = Except.ok hashed ∧
      ((∃ e, srv.first (negotiationRequest f bizAttr sliceSize session size hashed) zeroFirstPart
            = Except.error e ∧
          f.UploadSlice fs srv bizAttr sliceSize session
            = some ⟨⟨none, [], some e⟩,
                some (negotiationRequest f bizAttr sliceSize session size hashed), [], []⟩) ∨
       (∃ firstPart, srv.first (negotiationRequest f bizAttr sliceSize session size hashed) zeroFirstPart
            = Except.ok firstPart ∧
          ((firstPart.URL ≠ [] ∧
            f.UploadSlice fs srv bizAttr sliceSize session
              = some ⟨⟨some firstPart.toUploadResult, [], none⟩,
                  some (negotiationRequest f bizAttr sliceSize session size hashed), [], []⟩) ∨
           (firstPart.URL = [] ∧ ∃ e, fs.seek firstPart.Offset = some e ∧
            f.UploadSlice fs srv bizAttr sliceSize session
              = some ⟨⟨none, adoptedSession firstPart session, some e⟩,
                  some (negotiationRequest f bizAttr sliceSize session size hashed), [], []⟩) ∨
           (firstPart.URL = [] ∧ fs.seek firstPart.Offset = none ∧ ∃ out calls reads,
            chunkLoop f fs srv size (effectiveSliceSize firstPart sliceSize).toNat
                (adoptedSession firstPart session) (size - firstPart.Offset).toNat
                (loopStart firstPart session) = some (out, calls, reads) ∧
            f.UploadSlice fs srv bizAttr sliceSize session
              = some ⟨out, some (negotiationRequest f bizAttr sliceSize session size hashed),
                  calls, reads⟩))))) := by
  cases ho : fs.openErr with
  | some e => exact Or.inl ⟨e, rfl, by simp [File.UploadSlice, ho]⟩
  | none =>
    right
    cases hst : fs.stat with
    | error e => exact Or.inl ⟨e, rfl, rfl, by simp [File.UploadSlice, ho, hst]⟩
    | ok size =>
      right
      cases hcp : fs.copy with
      | error e => exact Or.inl ⟨size, e, rfl, rfl, rfl, by simp [File.UploadSlice, ho, hst, hcp]⟩
      | ok hashed =>
        right
        refine ⟨size, hashed, rfl, rfl, rfl, ?_⟩
        cases hf : srv.first (negotiationRequest f bizAttr sliceSize session size hashed) zeroFirstPart with
        | error e => exact Or.inl ⟨e, rfl, by simp [File.UploadSlice, ho, hst, hcp, hf]⟩
        | ok firstPart =>
          right
          refine ⟨firstPart, rfl, ?_⟩
          by_cases hu : firstPart.URL = []
          · right
            cases hsk : fs.seek firstPart.Offset with
            | some e =>
              exact Or.inl ⟨hu, e, rfl, by simp [File.UploadSlice, ho, hst, hcp, hf, hu, hsk]⟩
            | none =>
              right
              obtain ⟨r, hr⟩ := chunkLoop_total f fs srv size
                (effectiveSliceSize firstPart sliceSize).toNat (adoptedSession firstPart session)
                (effectiveSliceSize_pos firstPart sliceSize)
                (size - firstPart.Offset).toNat (loopStart firstPart session) (le_refl _)
              refine ⟨hu, rfl, r.1, r.2.1, r.2.2, hr, ?_⟩
              simp [File.UploadSlice, ho, hst, hcp, hf, hu, hsk, hr]
          · exact Or.inl ⟨hu, by simp [File.UploadSlice, ho, hst, hcp, hf, hu]⟩

theorem mem_of_split {α : Type} {l pre post : List α} {x : α} (h : l = pre ++ x :: post) :
    x ∈ l := by
  rw [h]
  exact List.mem_append_right _ (List.mem_cons_self _ _)

theorem loopEnds_last (session : GoString) (out : Outcome) (calls : List Exchange)
    (reads : List (List Byte × Option GoError)) (h : loopEnds session out calls reads)
    (pre post : List Exchange) (ex : Exchange) (hsplit : calls = pre ++ ex :: post)
    (hex : ¬ ex.continues session) :
    post = [] ∧ lastDecides session ex out := by
  rcases h with ⟨hc, _, _⟩ | ⟨_, _, _, hc, _⟩ | ⟨_, _, _, _, _, _, hc, _⟩ | ⟨ci, last, hcalls, hc, _, hl⟩
  · exact absurd (hc ex (mem_of_split hsplit)) hex
  · exact absurd (hc ex (mem_of_split hsplit)) hex
  · exact absurd (hc ex (mem_of_split hsplit)) hex
  · rw [hcalls] at hsplit
    rcases split_snoc pre post ci ex last hsplit with ⟨hp, _, hel⟩ | ⟨post', _, hci⟩
    · rw [hel]
      exact ⟨hp, hl⟩
    · exact absurd (hc ex (mem_of_split hci)) hex

theorem loopEnds_complete (session : GoString) (out : Outcome) (calls : List Exchange)
    (reads : List (List Byte × Option GoError)) (h : loopEnds session out calls reads)
    (pre post : List Exchange) (ex : Exchange) (hsplit : calls = pre ++ ex :: post)
    (part : uploadPartResult) (hrep : ex.reply = Except.ok part) (hu : part.URL ≠ []) :
    post = [] ∧ out = ⟨some part.toUploadResult, [], none⟩ := by
  have hex : ¬ ex.continues session := by
    rintro ⟨p, hp, hpu, _⟩
    rw [hrep] at hp
    injection hp with hp
    subst hp
    exact hu hpu
  obtain ⟨hp, hl⟩ := loopEnds_last session out calls reads h pre post ex hsplit hex
  refine ⟨hp, ?_⟩
  rcases hl with ⟨e, he, _⟩ | ⟨p, hp', _, ho⟩ | ⟨p, hp', hpu, _, _⟩
  · rw [hrep] at he
    exact Except.noConfusion he
  · rw [hrep] at hp'
    injection hp' with hp'
    subst hp'
    exact ho
  · rw [hrep] at hp'
    injection hp' with hp'
    subst hp'
    exact absurd hpu hu

theorem loopEnds_corrupt (session : GoString) (out : Outcome) (calls : List Exchange)
    (reads : List (List Byte × Option GoError)) (h : loopEnds session out calls reads)
    (pre post : List Exchange) (ex : Exchange) (hsplit : calls = pre ++ ex :: post)
    (part : uploadPartResult) (hrep : ex.reply = Except.ok part) (hu : part.URL = [])
    (hs : part.Session ≠ session) :
    post = [] ∧ out = ⟨none, [], some sessionCorrupt⟩ := by
  have hex : ¬ ex.continues session := by
    rintro ⟨p, hp, _, hps⟩
    rw [hrep] at hp
    injection hp with hp
    subst hp
    exact hs hps
  obtain ⟨hp, hl⟩ := loopEnds_last session out calls reads h pre post ex hsplit hex
  refine ⟨hp, ?_⟩
  rcases hl with ⟨e, he, _⟩ | ⟨p, hp', hpu, _⟩ | ⟨p, hp', _, _, ho⟩
  · rw [hrep] at he
    exact Except.noConfusion he
  · rw [hrep] at hp'
    injection hp' with hp'
    subst hp'
    exact absurd hu hpu
  · exact ho

theorem loopEnds_callError (session : GoString) (out : Outcome) (calls : List Exchange)
    (reads : List (List Byte × Option GoError)) (h : loopEnds session out calls reads)
    (pre post : List Exchange) (ex : Exchange) (hsplit : calls = pre ++ ex :: post)
    (e : GoError) (hrep : ex.reply = Except.error e) :
    post = [] ∧ out = ⟨none, session, some e⟩ := by
  have hex : ¬ ex.continues session := by
    rintro ⟨p, hp, _, _⟩
    rw [hrep] at hp
    exact Except.noConfusion hp
  obtain ⟨hp, hl⟩ := loopEnds_last session out calls reads h pre post ex hsplit hex
  refine ⟨hp, ?_⟩
  rcases hl with ⟨e', he, ho⟩ | ⟨p, hp', _, _⟩ | ⟨p, hp', _, _, _⟩
  · rw [hrep] at he
    injection he with he
    subst he
    exact ho
  · rw [hrep] at hp'
    exact Except.noConfusion hp'
  · rw [hrep] at hp'
    exact Except.noConfusion hp'

theorem loopEnds_readError (session : GoString) (out : Outcome) (calls : List Exchange)
    (reads : List (List Byte × Option GoError)) (h : loopEnds session out calls reads)
    (pre post : List (List Byte × Option GoError)) (rd : List Byte × Option GoError)
    (hsplit : reads = pre ++ rd :: post) (e : GoError) (he : rd.2 = some e)
    (hne : e ≠ GoError.EOF) :
    post = [] ∧ out = ⟨none, session, some e⟩ := by
  have hrd : ¬ readOK rd := not_readOK_of_err rd e he
  rcases h with ⟨_, hr, _⟩ | ⟨ri, hreads, hr, _, _⟩ | ⟨ri, bs, e', hreads, _, hr, _, ho⟩ |
    ⟨_, _, _, _, hr, _⟩
  · exact absurd (hr rd (mem_of_split hsplit)) hrd
  · rw [hreads] at hsplit
    rcases split_snoc pre post ri rd _ hsplit with ⟨_, _, hel⟩ | ⟨post', _, hri⟩
    · rw [hel] at he
      injection he with he
      exact absurd he.symm hne
    · exact absurd (hr rd (mem_of_split hri)) hrd
  · rw [hreads] at hsplit
    rcases split_snoc pre post ri rd _ hsplit with ⟨hp, _, hel⟩ | ⟨post', _, hri⟩
    · rw [hel] at he
      injection he with he
      subst he
      exact ⟨hp, ho⟩
    · exact absurd (hr rd (mem_of_split hri)) hrd
  · exact absurd (hr rd (mem_of_split hsplit)) hrd

theorem loopEnds_nil_err (session : GoString) (out : Outcome) (calls : List Exchange)
    (reads : List (List Byte × Option GoError)) (h : loopEnds session out calls reads)
    (herr : out.err = none) :
    ∃ res, out.result = some res ∧ res.URL ≠ [] ∧ out.session = [] := by
  rcases h with ⟨_, _, ho⟩ | ⟨_, _, _, _, ho⟩ | ⟨_, _, _, _, _, _, _, ho⟩ | ⟨_, _, _, _, _, hl⟩
  · rw [ho] at herr; exact Option.noConfusion herr
  · rw [ho] at herr; exact Option.noConfusion herr
  · rw [ho] at herr; exact Option.noConfusion herr
  · rcases hl with ⟨_, _, ho⟩ | ⟨p, _, hpu, ho⟩ | ⟨_, _, _, _, ho⟩
    · rw [ho] at herr; exact Option.noConfusion herr
    · rw [ho]
      exact ⟨p.toUploadResult, rfl, hpu, rfl⟩
    · rw [ho] at herr; exact Option.noConfusion herr

theorem UploadSlice_run (f : File) (fs : LocalFile) (srv : Server) (bizAttr : GoString)
    (sliceSize : Int) (session : GoString) :
    ∃ run, f.UploadSlice fs srv bizAttr sliceSize session = some run ∧
      runSpec f fs srv bizAttr sliceSize session run := by
  rcases UploadSlice_cases f fs srv bizAttr sliceSize session with
    ⟨e, ho, h⟩ | ⟨e, ho, hst, h⟩ | ⟨size, e, ho, hst, hcp, h⟩ | ⟨size, hashed, ho, hst, hcp, h⟩
  · exact ⟨_, h, Or.inl ⟨e, Or.inl ho, rfl, rfl, rfl, rfl⟩⟩
  · exact ⟨_, h, Or.inl ⟨e, Or.inr (Or.inl ⟨ho, hst⟩), rfl, rfl, rfl, rfl⟩⟩
  · exact ⟨_, h, Or.inl ⟨e, Or.inr (Or.inr ⟨size, ho, hst, hcp⟩), rfl, rfl, rfl, rfl⟩⟩
  · rcases h with ⟨e, hf, h⟩ | ⟨firstPart, hf, h⟩
    · exact ⟨_, h, Or.inr ⟨size, hashed, ho, hst, hcp, rfl, Or.inl ⟨e, hf, rfl, rfl, rfl⟩⟩⟩
    · rcases h with ⟨hu, h⟩ | ⟨hu, e, hsk, h⟩ | ⟨hu, hsk, out, calls, reads, hloop, h⟩
      · exact ⟨_, h, Or.inr ⟨size, hashed, ho, hst, hcp, rfl,
          Or.inr ⟨firstPart, hf, Or.inl ⟨hu, rfl, rfl, rfl⟩⟩⟩⟩
      · exact ⟨_, h, Or.inr ⟨size, hashed, ho, hst, hcp, rfl,
          Or.inr ⟨firstPart, hf, Or.inr (Or.inl ⟨hu, e, hsk, rfl, rfl, rfl⟩)⟩⟩⟩
      · have hL := effectiveSliceSize_pos firstPart sliceSize
        have hinv := loopInv_start f fs srv size (effectiveSliceSize firstPart sliceSize).toNat
          firstPart session
        refine ⟨_, h, Or.inr ⟨size, hashed, ho, hst, hcp, rfl,
          Or.inr ⟨firstPart, hf, Or.inr (Or.inr ⟨hu, hsk, ?_, ?_, ?_, ?_⟩)⟩⟩⟩
        · exact chunkLoop_ends f fs srv size _ _ hL _ _ _ hloop
            (by simp [loopStart]) (by simp [loopStart])
        · exact chunkLoop_requests f fs srv size _ _ firstPart.Offset hL _ _ _ hloop hinv
        · exact chunkLoop_reads f fs srv size _ _ firstPart.Offset hL _ _ _ hloop hinv
            (by intro pre rd post h; simp [loopStart] at h)
        · intro hc hr
          exact (chunkLoop_exhausted f fs srv size _ _ firstPart.Offset hL _ _ _ hloop hinv
            hc hr).1

theorem nil_ne_split {α : Type} {calls : List α} {pre post : List α} {ex : α}
    (hc : calls = []) (hsplit : calls = pre ++ ex :: post) : False := by
  rw [hc] at hsplit
  simp at hsplit

theorem singleton_of_map {α β : Type} (g : α → β) (l : List α) (v : β) (h : l.map g = [v]) :
    ∃ a, l = [a] ∧ g a = v := by
  match l, h with
  | [a], h => exact ⟨a, rfl, by simpa using h⟩

theorem negotiationRequest_session (f : File) (bizAttr : GoString) (sliceSize : Int)
    (session : GoString) (size : Int) (hashed : List Byte) :
    (negotiationRequest f bizAttr sliceSize session size hashed).body.get (str "session")
      = session := by
  simp only [negotiationRequest]
  rw [params_get_Set_other _ _ _ _ (by decide), params_get_Set_other _ _ _ _ (by decide),
    params_get_Set_same]

theorem runSpec_first (f : File) (fs : LocalFile) (srv : Server) (bizAttr : GoString)
    (sliceSize : Int) (session : GoString) (run : Run)
    (hspec : runSpec f fs srv bizAttr sliceSize session run) (size : Int) (hashed : List Byte)
    (ho : fs.openErr = none) (hst : fs.stat = Except.ok size) (hcp : fs.copy = Except.ok hashed) :
    run.first = some (negotiationRequest f bizAttr sliceSize session size hashed) := by
  rcases hspec with ⟨e, hfail, _⟩ | ⟨size', hashed', _, hst', hcp', hfirst, _⟩
  · rcases hfail with h | ⟨_, h⟩ | ⟨_, _, _, h⟩
    · rw [ho] at h; exact Option.noConfusion h
    · rw [hst] at h; exact Except.noConfusion h
    · rw [hcp] at h; exact Except.noConfusion h
  · rw [hst] at hst'
    rw [hcp] at hcp'
    injection hst' with hst'
    injection hcp' with hcp'
    subst hst' hcp'
    exact hfirst

theorem runSpec_prelude (f : File) (fs : LocalFile) (srv : Server) (bizAttr : GoString)
    (sliceSize : Int) (session : GoString) (run : Run)
    (hspec : runSpec f fs srv bizAttr sliceSize session run) (e : GoError)
    (hfail : fs.openErr = some e ∨ (fs.openErr = none ∧ fs.stat = Except.error e) ∨
      (∃ size, fs.openErr = none ∧ fs.stat = Except.ok size ∧ fs.copy = Except.error e)) :
    run.first = none ∧ run.calls = [] ∧ run.out = ⟨none, [], some e⟩ := by
  rcases hspec with ⟨e', hfail', ho, hf, hc, _⟩ | ⟨size', hashed', ho', hst', hcp', _⟩
  · have : e' = e := by
      rcases hfail with h | ⟨h0, h⟩ | ⟨sz, h0, h1, h⟩ <;>
        rcases hfail' with h' | ⟨h0', h'⟩ | ⟨sz', h0', h1', h'⟩
      · rw [h] at h'; injection h' with h'; exact h'.symm
      · rw [h] at h0'; exact Option.noConfusion h0'
      · rw [h] at h0'; exact Option.noConfusion h0'
      · rw [h0] at h'; exact Option.noConfusion h'
      · rw [h] at h'; injection h' with h'; exact h'.symm
      · rw [h] at h1'; exact Except.noConfusion h1'
      · rw [h0] at h'; exact Option.noConfusion h'
      · rw [h1] at h'; exact Except.noConfusion h'
      · rw [h] at h'; injection h' with h'; exact h'.symm
    subst this
    exact ⟨hf, hc, ho⟩
  · rcases hfail with h | ⟨_, h⟩ | ⟨_, _, _, h⟩
    · rw [ho'] at h; exact Option.noConfusion h
    · rw [hst'] at h; exact Except.noConfusion h
    · rw [hcp'] at h; exact Except.noConfusion h

theorem runSpec_negotiation (f : File) (fs : LocalFile) (srv : Server) (bizAttr : GoString)
    (sliceSize : Int) (session : GoString) (run : Run)
    (hspec : runSpec f fs srv bizAttr sliceSize session run) (req : Request)
    (hreq : run.first = some req) :
    (∀ e, srv.first req zeroFirstPart = Except.error e → run.calls = [] ∧ run.out = ⟨none, [], some e⟩) ∧
    (∀ firstPart, srv.first req zeroFirstPart = Except.ok firstPart →
      (firstPart.URL ≠ [] ∧ run.calls = [] ∧
        run.out = ⟨some firstPart.toUploadResult, [], none⟩) ∨
      (firstPart.URL = [] ∧ ∃ e, fs.seek firstPart.Offset = some e ∧ run.calls = [] ∧
        run.out = ⟨none, adoptedSession firstPart session, some e⟩) ∨
      (firstPart.URL = [] ∧ fs.seek firstPart.Offset = none ∧ ∃ size,
        fs.stat = Except.ok size ∧
        loopEnds (adoptedSession firstPart session) run.out run.calls run.reads ∧
        (∀ pre ex post, run.calls = pre ++ ex :: post →
          chunkSpec f fs srv size (effectiveSliceSize firstPart sliceSize).toNat
            (adoptedSession firstPart session) firstPart.Offset pre ex) ∧
        (∀ pre rd post, run.reads = pre ++ rd :: post →
          readSpec fs size (effectiveSliceSize firstPart sliceSize).toNat firstPart.Offset
            run.calls pre rd) ∧
        ((∀ ex ∈ run.calls, ex.continues (adoptedSession firstPart session)) →
          (∀ rd ∈ run.reads, readOK rd) →
          size ≤ firstPart.Offset + sent run.calls))) := by
  rcases hspec with ⟨_, _, _, hfirst, _⟩ | ⟨size, hashed, _, hst, _, hfirst, hrest⟩
  · rw [hfirst] at hreq; exact Option.noConfusion hreq
  · rw [hfirst] at hreq
    injection hreq with hreq
    subst hreq
    constructor
    · intro e he
      rcases hrest with ⟨e', hf, ho, hc, _⟩ | ⟨fp, hf, _⟩
      · rw [he] at hf
        injection hf with hf
        subst hf
        exact ⟨hc, ho⟩
      · rw [he] at hf; exact Except.noConfusion hf
    · intro firstPart hfp
      rcases hrest with ⟨e', hf, _⟩ | ⟨fp, hf, hrest⟩
      · rw [hfp] at hf; exact Except.noConfusion hf
      · rw [hfp] at hf
        injection hf with hf
        subst hf
        rcases hrest with ⟨hu, ho, hc, _⟩ | ⟨hu, e, hsk, ho, hc, _⟩ |
          ⟨hu, hsk, hends, hreqs, hreads, hexh⟩
        · exact Or.inl ⟨hu, hc, ho⟩
        · exact Or.inr (Or.inl ⟨hu, e, hsk, hc, ho⟩)
        · exact Or.inr (Or.inr ⟨hu, hsk, size, hst, hends, hreqs, hreads, hexh⟩)

/-! ## Lemmas on regular files -/

theorem regularFile_fileRead (content : List Byte) (mo : Int) (mr : Nat) (k : Nat) (off : Int)
    (L : Nat) (h0 : 0 ≤ off) (h1 : off < content.length) (hL : 0 < L) (hR : 0 < mr) :
    fileRead ((regularFile content mo mr).read k off L) L
      = ((content.drop off.toNat).take (min L mr), none) := by
  have hlen : 0 < ((content.drop off.toNat).take (min L mr)).length := by
    rw [List.length_take, List.length_drop]
    omega
  have hne : (content.drop off.toNat).take (min L mr) ≠ [] := List.length_pos.mp hlen
  have hmin : min L (min L mr) = min L mr := by omega
  simp only [regularFile, fileRead, List.take_take, hmin]
  rw [if_neg (fun h => hne h.1)]

theorem chunk_length (content : List Byte) (n L : Nat) :
    ((content.drop n).take L).length = min L (content.length - n) := by
  rw [List.length_take, List.length_drop]

theorem regularFile_seek (content : List Byte) (mo : Int) (mr : Nat) (off : Int)
    (h : (regularFile content mo mr).seek off = none) : 0 ≤ off ∧ off ≤ mo := by
  by_contra hneg
  have : off < 0 ∨ mo < off := by omega
  simp [regularFile, this] at h

theorem regularFile_seek_ok (content : List Byte) (mo : Int) (mr : Nat) (off : Int)
    (h0 : 0 ≤ off) (h1 : off ≤ mo) : (regularFile content mo mr).seek off = none := by
  have : ¬ (off < 0 ∨ mo < off) := by omega
  simp [regularFile, this]

theorem regularFile_seek_error (content : List Byte) (mo : Int) (mr : Nat) (off : Int)
    (e : GoError) (h : (regularFile content mo mr).seek off = some e) : e = EINVAL := by
  by_cases hc : off < 0 ∨ mo < off
  · simp only [regularFile, hc, if_true, Option.some.injEq] at h
    exact h.symm
  · simp [regularFile, hc] at h

theorem sent_nonneg_split (o0 : Int) (pre : List Exchange) (h : 0 ≤ o0) : 0 ≤ o0 + sent pre := by
  have : (0 : Int) ≤ (sent pre : Int) := Int.ofNat_nonneg _
  omega

theorem regular_chunk (f : File) (content : List Byte) (mo : Int) (mr : Nat) (srv : Server)
    (L : Nat) (session : GoString) (o0 : Int) (pre : List Exchange) (ex : Exchange)
    (h0 : 0 ≤ o0) (hL : 0 < L) (hR : 0 < mr)
    (hspec : chunkSpec f (regularFile content mo mr) srv content.length L session o0 pre ex) :
    0 ≤ o0 + sent pre ∧
    ex.req.body.get (str "offset") = formatInt (o0 + sent pre) ∧
    ex.req.content = some ((content.drop (o0 + sent pre).toNat).take (min L mr)) ∧
    ex.req.len = min (min L mr) (content.length - (o0 + sent pre).toNat) ∧
    (L ≤ mr → ex.req.len = min L (content.length - (o0 + sent pre).toNat)) ∧
    0 < ex.req.len ∧
    ex.req.body.get (str "sha")
      = sha1sum ((content.drop (o0 + sent pre).toNat).take (min L mr)) ∧
    o0 + sent pre + ex.req.len ≤ content.length := by
  obtain ⟨hlt, _, hcontent, _, _, _, hoff, hsha, _⟩ := hspec
  have hnn := sent_nonneg_split o0 pre h0
  rw [regularFile_fileRead content mo mr _ _ L hnn hlt hL hR] at hcontent hsha
  have hlen : ex.req.len = min (min L mr) (content.length - (o0 + sent pre).toNat) := by
    rw [Request.len, hcontent, Option.getD_some, chunk_length]
  refine ⟨hnn, hoff, hcontent, hlen, ?_, ?_, hsha, ?_⟩
  · intro hle
    rw [hlen, Nat.min_eq_left hle]
  · rw [hlen]; omega
  · rw [hlen]; omega

theorem regular_reads (content : List Byte) (mo : Int) (mr : Nat) (L : Nat) (o0 : Int)
    (calls : List Exchange) (reads : List (List Byte × Option GoError)) (h0 : 0 ≤ o0)
    (hL : 0 < L) (hR : 0 < mr)
    (hreads : ∀ pre rd post, reads = pre ++ rd :: post →
      readSpec (regularFile content mo mr) content.length L o0 calls pre rd) :
    ∀ rd ∈ reads, readOK rd := by
  intro rd hrd
  obtain ⟨pre, post, hsplit⟩ := List.append_of_mem hrd
  obtain ⟨hlt, heq⟩ := hreads pre rd post hsplit
  have hnn := sent_nonneg_split o0 (calls.take pre.length) h0
  rw [regularFile_fileRead content mo mr _ _ L hnn hlt hL hR] at heq
  rw [heq]
  refine ⟨rfl, ?_⟩
  apply List.length_pos.mp
  rw [chunk_length]
  omega

theorem sent_le_size (f : File) (content : List Byte) (mo : Int) (mr : Nat) (srv : Server)
    (L : Nat) (session : GoString) (o0 : Int) (calls : List Exchange) (h0 : 0 ≤ o0)
    (hL : 0 < L) (hR : 0 < mr) (hle : o0 ≤ content.length)
    (hreqs : ∀ pre ex post, calls = pre ++ ex :: post →
      chunkSpec f (regularFile content mo mr) srv content.length L session o0 pre ex) :
    o0 + sent calls ≤ content.length := by
  rcases List.eq_nil_or_concat calls with hc | ⟨pre, last, hc⟩
  · subst hc
    simpa [sent] using hle
  · rw [List.concat_eq_append] at hc
    have h := regular_chunk f content mo mr srv L session o0 pre last h0 hL hR
      (hreqs pre last [] (by rw [hc]))
    rw [hc, sent_snoc]
    push_cast
    omega

theorem regular_loop_end (f : File) (content : List Byte) (mo : Int) (mr : Nat) (srv : Server)
    (L : Nat) (session : GoString) (o0 : Int) (out : Outcome) (calls : List Exchange)
    (reads : List (List Byte × Option GoError)) (h0 : 0 ≤ o0) (hL : 0 < L) (hR : 0 < mr)
    (hends : loopEnds session out calls reads)
    (hreqs : ∀ pre ex post, calls = pre ++ ex :: post →
      chunkSpec f (regularFile content mo mr) srv content.length L session o0 pre ex)
    (hreads : ∀ pre rd post, reads = pre ++ rd :: post →
      readSpec (regularFile content mo mr) content.length L o0 calls pre rd)
    (hexh : (∀ ex ∈ calls, ex.continues session) → (∀ rd ∈ reads, readOK rd) →
      (content.length : Int) ≤ o0 + sent calls)
    (hok : ∀ ex ∈ calls, ∃ part, ex.reply = Except.ok part ∧
      (part.URL ≠ [] ∨ part.Session = session)) :
    ((o0 ≤ content.length → o0 + sent calls = content.length) ∧
      out = ⟨none, session, some GoError.ErrUnexpectedEOF⟩ ∧
      ∀ ex ∈ calls, ex.continues session) ∨
    (∃ pre last part, calls = pre ++ [last] ∧ last.reply = Except.ok part ∧ part.URL ≠ [] ∧
      out = ⟨some part.toUploadResult, [], none⟩) := by
  have hrok := regular_reads content mo mr L o0 calls reads h0 hL hR hreads
  have hub := fun hle => sent_le_size f content mo mr srv L session o0 calls h0 hL hR hle hreqs
  rcases hends with ⟨hc, _, ho⟩ | ⟨ri, hri, _, _, _⟩ | ⟨ri, bs, e, hri, _, _, _, _⟩ |
    ⟨ci, last, hcalls, hc, _, hl⟩
  · left
    have := hexh hc hrok
    exact ⟨fun hle => by have := hub hle; omega, ho, hc⟩
  · have := hrok ([], some GoError.EOF) (by rw [hri]; simp)
    exact absurd this.1 (by simp)
  · have := hrok (bs, some e) (by rw [hri]; simp)
    exact absurd this.1 (by simp)
  · obtain ⟨p, hp, hpp⟩ := hok last (by rw [hcalls]; simp)
    rcases hl with ⟨e, he, _⟩ | ⟨part, hpart, hu, ho⟩ | ⟨part, hpart, hu, hs, _⟩
    · rw [hp] at he; exact Except.noConfusion he
    · right
      exact ⟨ci, last, part, hcalls, hpart, hu, ho⟩
    · rw [hp] at hpart
      injection hpart with hpart
      subst hpart
      rcases hpp with h | h
      · exact absurd hu h
      · exact absurd h hs

theorem regular_run (f : File) (content : List Byte) (mo : Int) (mr : Nat) (srv : Server)
    (bizAttr : GoString) (sliceSize : Int) (session : GoString)
    (firstPart : uploadFirstPartResult) (run : Run)
    (hfirst : srv.first (negotiationRequest f bizAttr sliceSize session content.length content)
      zeroFirstPart = Except.ok firstPart)
    (hspec : runSpec f (regularFile content mo mr) srv bizAttr sliceSize session run) :
    (run.calls = [] ∧ firstPart.URL ≠ [] ∧
      run.out = ⟨some firstPart.toUploadResult, [], none⟩) ∨
    (run.calls = [] ∧ firstPart.URL = [] ∧
      (regularFile content mo mr).seek firstPart.Offset = some EINVAL ∧
      run.out = ⟨none, adoptedSession firstPart session, some EINVAL⟩) ∨
    (firstPart.URL = [] ∧ (regularFile content mo mr).seek firstPart.Offset = none ∧
      0 ≤ firstPart.Offset ∧
      loopEnds (adoptedSession firstPart session) run.out run.calls run.reads ∧
      (∀ pre ex post, run.calls = pre ++ ex :: post →
        chunkSpec f (regularFile content mo mr) srv content.length
          (effectiveSliceSize firstPart sliceSize).toNat
          (adoptedSession firstPart session) firstPart.Offset pre ex) ∧
      (∀ pre rd post, run.reads = pre ++ rd :: post →
        readSpec (regularFile content mo mr) content.length
          (effectiveSliceSize firstPart sliceSize).toNat firstPart.Offset run.calls pre rd) ∧
      ((∀ ex ∈ run.calls, ex.continues (adoptedSession firstPart session)) →
        (∀ rd ∈ run.reads, readOK rd) →
        (content.length : Int) ≤ firstPart.Offset + sent run.calls)) := by
  have hreq := runSpec_first f (regularFile content mo mr) srv bizAttr sliceSize session run
    hspec content.length content rfl rfl rfl
  rcases (runSpec_negotiation f (regularFile content mo mr) srv bizAttr sliceSize session run
    hspec _ hreq).2 firstPart hfirst with ⟨hu, hc, ho⟩ | ⟨hu, e, hsk, hc, ho⟩ |
    ⟨hu, hsk, size, hst, hends, hreqs, hreads, hexh⟩
  · exact Or.inl ⟨hc, hu, ho⟩
  · right; left
    have he := regularFile_seek_error content mo mr _ e hsk
    subst he
    exact ⟨hc, hu, hsk, ho⟩
  · right; right
    have hsize : size = content.length := by
      have : (regularFile content mo mr).stat = Except.ok (content.length : Int) := rfl
      rw [this] at hst
      injection hst with hst
      exact hst.symm
    subst hsize
    exact ⟨hu, hsk, (regularFile_seek content mo mr _ hsk).1, hends, hreqs, hreads, hexh⟩

theorem regular_echo_run (f : File) (content : List Byte) (mo : Int) (mr : Nat) (srv : Server)
    (bizAttr : GoString) (sliceSize : Int) (session : GoString)
    (firstPart : uploadFirstPartResult) (run : Run) (hR : 0 < mr)
    (hfirst : srv.first (negotiationRequest f bizAttr sliceSize session content.length content)
      zeroFirstPart = Except.ok firstPart)
    (hu : firstPart.URL = [])
    (hseek : (regularFile content mo mr).seek firstPart.Offset = none)
    (hecho : ∀ k req, ∃ part, srv.part k req zeroPart = Except.ok part ∧ part.URL = [] ∧
      part.Session = req.body.get (str "session"))
    (hspec : runSpec f (regularFile content mo mr) srv bizAttr sliceSize session run) :
    run.out = ⟨none, adoptedSession firstPart session, some GoError.ErrUnexpectedEOF⟩ ∧
    (∀ ex ∈ run.calls, ex.continues (adoptedSession firstPart session)) ∧
    (firstPart.Offset ≤ content.length →
      firstPart.Offset + sent run.calls = content.length) ∧
    ((content.length : Int) ≤ firstPart.Offset → run.calls = []) ∧
    (∀ pre ex post, run.calls = pre ++ ex :: post →
      chunkSpec f (regularFile content mo mr) srv content.length
        (effectiveSliceSize firstPart sliceSize).toNat
        (adoptedSession firstPart session) firstPart.Offset pre ex) := by
  have hL := effectiveSliceSize_pos firstPart sliceSize
  rcases regular_run f content mo mr srv bizAttr sliceSize session firstPart run hfirst hspec
    with ⟨_, hu', _⟩ | ⟨_, _, hsk, _⟩ | ⟨_, _, h0, hends, hreqs, hreads, hexh⟩
  · exact absurd hu hu'
  · rw [hseek] at hsk
    exact Option.noConfusion hsk
  · have hcont : ∀ ex ∈ run.calls, ex.continues (adoptedSession firstPart session) := by
      intro ex hex
      obtain ⟨pre, post, hsplit⟩ := List.append_of_mem hex
      have hs := hreqs pre ex post hsplit
      obtain ⟨part, hp, hpu, hps⟩ := hecho pre.length ex.req
      refine ⟨part, ?_, hpu, ?_⟩
      · rw [hs.2.2.2.2.2.2.2.2, hp]
      · rw [hps, hs.2.2.2.2.2.1]
    have hok : ∀ ex ∈ run.calls, ∃ part, ex.reply = Except.ok part ∧
        (part.URL ≠ [] ∨ part.Session = adoptedSession firstPart session) := by
      intro ex hex
      obtain ⟨part, hp, _, hps⟩ := hcont ex hex
      exact ⟨part, hp, Or.inr hps⟩
    rcases regular_loop_end f content mo mr srv _ _ _ run.out run.calls run.reads h0 hL hR
      hends hreqs hreads hexh hok with ⟨heq, ho, _⟩ | ⟨pre, last, part, hcalls, hp, hpu, _⟩
    · refine ⟨ho, hcont, heq, ?_, hreqs⟩
      intro hge
      match hc : run.calls with
      | [] => rfl
      | ex :: post =>
        have hs := hreqs [] ex post (by simp [hc])
        have := hs.1
        simp [sent] at this
        omega
    · obtain ⟨part', hp', hpu', _⟩ := hcont last (by rw [hcalls]; simp)
      rw [hp] at hp'
      injection hp' with hp'
      subst hp'
      exact absurd hpu' hpu

/-! # Part III: the properties C1 to C10 -/

/-- C1: for every appID, secretID, secretKey, bucket name `b`, integers `e`,
`t`, `r` and string `f`, `COS.sign` returns the padded standard base64
encoding of the HMAC-SHA1 (keyed with secretKey) of the payload
`a=<appID>&b=<b>&k=<secretID>&e=<e>&t=<t>&r=<r>&f=<f>` followed by the payload
itself, where the integers are written in decimal (reading them back gives
`e`, `t` and `r`); the HMAC has 20 bytes, so decoding the token and dropping
20 bytes gives the payload. On the inputs of `TestSign` the result is the
test's `more` token and its `once` token. -/
theorem C1_sign_is_base64_of_hmac_and_payload
    (cos : COS) (b : GoString) (e t r : Int) (f : GoString) :
    cos.payload b e t r f
        = str "a=" ++ cos.appID ++ str "&b=" ++ b ++ str "&k=" ++ cos.secretID
          ++ str "&e=" ++ formatInt e ++ str "&t=" ++ formatInt t ++ str "&r=" ++ formatInt r
          ++ str "&f=" ++ f ∧
    (parseInt (formatInt e) = e ∧ parseInt (formatInt t) = t ∧ parseInt (formatInt r) = r) ∧
    cos.sign b e t r f
        = base64Encode (hmacSha1 cos.secretKey (cos.payload b e t r f) ++ cos.payload b e t r f) ∧
    (hmacSha1 cos.secretKey (cos.payload b e t r f)).length = 20 ∧
    base64Decode (cos.sign b e t r f)
        = some (hmacSha1 cos.secretKey (cos.payload b e t r f) ++ cos.payload b e t r f) ∧
    (base64Decode (cos.sign b e t r f)).map (List.drop 20) = some (cos.payload b e t r f) ∧
    testSignCOS.sign (str "newbucket") 1438669115 1436077115 11162 [] = testSignMore ∧
    testSignCOS.sign (str "newbucket") 0 1436077115 11162
        (str "/200001/newbucket/tencent_test.jpg") = testSignOnce := by
  have hlen := hmacSha1_length cos.secretKey (cos.payload b e t r f)
  have hdec : base64Decode (cos.sign b e t r f)
      = some (hmacSha1 cos.secretKey (cos.payload b e t r f) ++ cos.payload b e t r f) := by
    rw [COS.sign]
    exact base64Decode_encode _
  refine ⟨rfl, ⟨parseInt_formatInt e, parseInt_formatInt t, parseInt_formatInt r⟩, rfl, hlen,
    hdec, ?_, by decide!, by decide!⟩
  rw [hdec, Option.map_some', ← hlen, List.drop_left]

/-- C2: `UploadSlice` always returns, and it stops at the first reply that
carries a URL. The negotiation call is made once open, stat and the hashing
copy succeeded; if its reply has a URL, no chunk call is made and the result
is that reply's `UploadResult` with an empty session and no error. Every chunk
reply recorded is the server's reply to the request recorded; a chunk reply
with a URL is the last call, and the result is its `UploadResult` with an
empty session and no error. Conversely a nil error comes with a result whose
URL is not empty and with an empty session. -/
theorem C2_UploadSlice_stops_at_first_URL (f : File) (fs : LocalFile) (srv : Server)
    (bizAttr : GoString) (sliceSize : Int) (session : GoString) :
    ∃ run, f.UploadSlice fs srv bizAttr sliceSize session = some run ∧
      (∀ size hashed, fs.openErr = none → fs.stat = Except.ok size →
        fs.copy = Except.ok hashed →
        run.first = some (negotiationRequest f bizAttr sliceSize session size hashed)) ∧
      (∀ req firstPart, run.first = some req → srv.first req zeroFirstPart = Except.ok firstPart →
        firstPart.URL ≠ [] →
        run.calls = [] ∧ run.out = ⟨some firstPart.toUploadResult, [], none⟩) ∧
      (∀ pre ex post, run.calls = pre ++ ex :: post →
        ex.reply = srv.part pre.length ex.req zeroPart) ∧
      (∀ pre ex post part, run.calls = pre ++ ex :: post → ex.reply = Except.ok part →
        part.URL ≠ [] → post = [] ∧ run.out = ⟨some part.toUploadResult, [], none⟩) ∧
      (run.out.err = none →
        ∃ res, run.out.result = some res ∧ res.URL ≠ [] ∧ run.out.session = []) := by
  obtain ⟨run, hrun, hspec⟩ := UploadSlice_run f fs srv bizAttr sliceSize session
  refine ⟨run, hrun, ?_, ?_, ?_, ?_, ?_⟩
  · intro size hashed ho hst hcp
    rcases hspec with ⟨e, hfail, _⟩ | ⟨size', hashed', _, hst', hcp', hfirst, _⟩
    · rcases hfail with h | ⟨_, h⟩ | ⟨_, _, _, h⟩
      · rw [ho] at h; exact Option.noConfusion h
      · rw [hst] at h; exact Except.noConfusion h
      · rw [hcp] at h; exact Except.noConfusion h
    · rw [hst] at hst'
      rw [hcp] at hcp'
      injection hst' with hst'
      injection hcp' with hcp'
      subst hst' hcp'
      exact hfirst
  · intro req firstPart hreq hrep hu
    rcases hspec with ⟨_, _, _, hfirst, _⟩ | ⟨size, hashed, _, _, _, hfirst, hrest⟩
    · rw [hfirst] at hreq; exact Option.noConfusion hreq
    · rw [hfirst] at hreq
      injection hreq with hreq
      subst hreq
      rcases hrest with ⟨e, hf, _⟩ | ⟨fp, hf, hrest⟩
      · rw [hrep] at hf; exact Except.noConfusion hf
      · rw [hrep] at hf
        injection hf with hf
        subst hf
        rcases hrest with ⟨_, ho, hc, _⟩ | ⟨hu', _⟩ | ⟨hu', _⟩
        · exact ⟨hc, ho⟩
        · exact absurd hu' hu
        · exact absurd hu' hu
  · intro pre ex post hsplit
    rcases hspec with ⟨_, _, _, _, hc, _⟩ | ⟨size, hashed, _, _, _, _, hrest⟩
    · rw [hc] at hsplit; simp at hsplit
    · rcases hrest with ⟨_, _, _, hc, _⟩ | ⟨fp, _, hrest⟩
      · rw [hc] at hsplit; simp at hsplit
      · rcases hrest with ⟨_, _, hc, _⟩ | ⟨_, _, _, _, hc, _⟩ | ⟨_, _, _, hreqs, _⟩
        · rw [hc] at hsplit; simp at hsplit
        · rw [hc] at hsplit; simp at hsplit
        · exact (hreqs pre ex post hsplit).2.2.2.2.2.2.2.2
  · intro pre ex post part hsplit hrep hu
    rcases hspec with ⟨_, _, _, _, hc, _⟩ | ⟨size, hashed, _, _, _, _, hrest⟩
    · rw [hc] at hsplit; simp at hsplit
    · rcases hrest with ⟨_, _, _, hc, _⟩ | ⟨fp, _, hrest⟩
      · rw [hc] at hsplit; simp at hsplit
      · rcases hrest with ⟨_, _, hc, _⟩ | ⟨_, _, _, _, hc, _⟩ | ⟨_, _, hends, _, _⟩
        · rw [hc] at hsplit; simp at hsplit
        · rw [hc] at hsplit; simp at hsplit
        · exact loopEnds_complete _ _ _ _ hends pre post ex hsplit part hrep hu
  · intro herr
    rcases hspec with ⟨_, _, ho, _⟩ | ⟨size, hashed, _, _, _, _, hrest⟩
    · rw [ho] at herr; exact Option.noConfusion herr
    · rcases hrest with ⟨_, _, ho, _⟩ | ⟨fp, _, hrest⟩
      · rw [ho] at herr; exact Option.noConfusion herr
      · rcases hrest with ⟨hu, ho, _⟩ | ⟨_, _, _, ho, _⟩ | ⟨_, _, hends, _, _⟩
        · rw [ho]
          exact ⟨fp.toUploadResult, rfl, hu, rfl⟩
        · rw [ho] at herr; exact Option.noConfusion herr
        · exact loopEnds_nil_err _ _ _ _ hends herr

/-- C2, on two servers: on a server that already has the file, the upload of
the 2000-byte file returns the result of the negotiation reply, an empty
session and no error, without any chunk call; on a server whose fourth chunk
reply carries the URL, it returns the result of that reply, an empty session
and no error after four chunk calls. -/
theorem C2_UploadSlice_stops_at_first_URL_witness :
    (∃ run, scenarioFile.UploadSlice scenarioLocal knownFileServer [] 512
        (str "s0") = some run ∧
      run.calls = [] ∧ run.out = ⟨some scenarioResult, [], none⟩) ∧
    (∃ run, scenarioFile.UploadSlice scenarioLocal scenarioServer [] 512
        (str "s0") = some run ∧
      run.calls.length = 4 ∧ run.out = ⟨some scenarioResult, [], none⟩) := by
  constructor
  · obtain ⟨run, hrun, hfirst, hneg, _⟩ :=
      C2_UploadSlice_stops_at_first_URL scenarioFile scenarioLocal
        knownFileServer [] 512 (str "s0")
    exact ⟨run, hrun,
      hneg _ ⟨⟨scenarioResult, 0, []⟩, 0⟩ (hfirst _ _ rfl rfl rfl) rfl (by decide)⟩
  · obtain ⟨run, hrun, _, _, hrep, hchunk, _⟩ :=
      C2_UploadSlice_stops_at_first_URL scenarioFile scenarioLocal
        scenarioServer [] 512 (str "s0")
    have h1 : (scenarioFile.UploadSlice scenarioLocal scenarioServer [] 512
        (str "s0")).map (fun r => r.calls.length) = some 4 := by
      decide!
    rw [hrun] at h1
    simp only [Option.map_some', Option.some.injEq] at h1
    match hc : run.calls, h1 with
    | [a, b, c, d], _ =>
      have hsplit : run.calls = [a, b, c] ++ d :: [] := by simp [hc]
      have hr : d.reply = Except.ok ⟨scenarioResult, 0, []⟩ := hrep [a, b, c] d [] hsplit
      exact ⟨run, hrun, by simp [hc], (hchunk [a, b, c] d [] _ hsplit hr (by decide)).2⟩

/-- C3, as stated, fails: on `otherSessionDoneServer` the only chunk call is
sent with session `s1`, succeeds, and its reply reports the session `other`,
yet `UploadSlice` returns the result of that reply with no error, because the
reply carries a URL. -/
theorem C3_counterexample_URL_wins :
    (scenarioFile.UploadSlice scenarioLocal otherSessionDoneServer [] 512 []).map
        (fun run => (run.out, run.calls.map (fun ex =>
          (ex.req.body.get (str "session"), ex.reply.toOption.map (fun p => p.Session)))))
      = some (⟨some scenarioResult, [], none⟩, [(str "s1", some (str "other"))]) ∧
    str "other" ≠ str "s1" ∧
    (⟨some scenarioResult, [], none⟩ : Outcome) ≠ ⟨none, [], some sessionCorrupt⟩ := by
  decide!

/-- C3, amended: `UploadSlice` always returns; every chunk reply recorded is
the server's reply to the request recorded, and every chunk request carries
the session adopted after the negotiation; a chunk call that succeeds with a
reply without URL whose session differs from the session sent is the last
call, and `UploadSlice` returns a nil result, an empty session and the error
`session corrupt`; a chunk call that succeeds with a reply that carries a URL
is the last call and gives the result of that reply, whatever its session. -/
theorem C3_session_mismatch_without_URL (f : File) (fs : LocalFile) (srv : Server)
    (bizAttr : GoString) (sliceSize : Int) (session : GoString) :
    ∃ run, f.UploadSlice fs srv bizAttr sliceSize session = some run ∧
      (∀ pre ex post, run.calls = pre ++ ex :: post →
        ex.reply = srv.part pre.length ex.req zeroPart) ∧
      (∀ req firstPart pre ex post, run.first = some req →
        srv.first req zeroFirstPart = Except.ok firstPart → run.calls = pre ++ ex :: post →
        ex.req.body.get (str "session") = adoptedSession firstPart session) ∧
      (∀ pre ex post part, run.calls = pre ++ ex :: post → ex.reply = Except.ok part →
        part.URL = [] → part.Session ≠ ex.req.body.get (str "session") →
        post = [] ∧ run.out = ⟨none, [], some sessionCorrupt⟩) ∧
      (∀ pre ex post part, run.calls = pre ++ ex :: post → ex.reply = Except.ok part →
        part.URL ≠ [] → post = [] ∧ run.out = ⟨some part.toUploadResult, [], none⟩) := by
  obtain ⟨run, hrun, hspec⟩ := UploadSlice_run f fs srv bizAttr sliceSize session
  refine ⟨run, hrun, ?_, ?_, ?_, ?_⟩
  · intro pre ex post hsplit
    rcases hspec with ⟨_, _, _, _, hc, _⟩ | ⟨size, hashed, _, _, _, _, hrest⟩
    · exact (nil_ne_split hc hsplit).elim
    · rcases hrest with ⟨_, _, _, hc, _⟩ | ⟨fp, _, hrest⟩
      · exact (nil_ne_split hc hsplit).elim
      · rcases hrest with ⟨_, _, hc, _⟩ | ⟨_, _, _, _, hc, _⟩ | ⟨_, _, _, hreqs, _⟩
        · exact (nil_ne_split hc hsplit).elim
        · exact (nil_ne_split hc hsplit).elim
        · exact (hreqs pre ex post hsplit).2.2.2.2.2.2.2.2
  · intro req firstPart pre ex post hreq hrep hsplit
    rcases hspec with ⟨_, _, _, _, hc, _⟩ | ⟨size, hashed, _, _, _, hfirst, hrest⟩
    · exact (nil_ne_split hc hsplit).elim
    · rw [hfirst] at hreq
      injection hreq with hreq
      subst hreq
      rcases hrest with ⟨_, _, _, hc, _⟩ | ⟨fp, hf, hrest⟩
      · exact (nil_ne_split hc hsplit).elim
      · rw [hrep] at hf
        injection hf with hf
        subst hf
        rcases hrest with ⟨_, _, hc, _⟩ | ⟨_, _, _, _, hc, _⟩ | ⟨_, _, _, hreqs, _⟩
        · exact (nil_ne_split hc hsplit).elim
        · exact (nil_ne_split hc hsplit).elim
        · exact (hreqs pre ex post hsplit).2.2.2.2.2.1
  · intro pre ex post part hsplit hrep hu hs
    rcases hspec with ⟨_, _, _, _, hc, _⟩ | ⟨size, hashed, _, _, _, _, hrest⟩
    · exact (nil_ne_split hc hsplit).elim
    · rcases hrest with ⟨_, _, _, hc, _⟩ | ⟨fp, _, hrest⟩
      · exact (nil_ne_split hc hsplit).elim
      · rcases hrest with ⟨_, _, hc, _⟩ | ⟨_, _, _, _, hc, _⟩ | ⟨_, _, hends, hreqs, _⟩
        · exact (nil_ne_split hc hsplit).elim
        · exact (nil_ne_split hc hsplit).elim
        · rw [(hreqs pre ex post hsplit).2.2.2.2.2.1] at hs
          exact loopEnds_corrupt _ _ _ _ hends pre post ex hsplit part hrep hu hs
  · intro pre ex post part hsplit hrep hu
    rcases hspec with ⟨_, _, _, _, hc, _⟩ | ⟨size, hashed, _, _, _, _, hrest⟩
    · exact (nil_ne_split hc hsplit).elim
    · rcases hrest with ⟨_, _, _, hc, _⟩ | ⟨fp, _, hrest⟩
      · exact (nil_ne_split hc hsplit).elim
      · rcases hrest with ⟨_, _, hc, _⟩ | ⟨_, _, _, _, hc, _⟩ | ⟨_, _, hends, _, _⟩
        · exact (nil_ne_split hc hsplit).elim
        · exact (nil_ne_split hc hsplit).elim
        · exact loopEnds_complete _ _ _ _ hends pre post ex hsplit part hrep hu

/-- C3, amended, on `corruptServer`: the first chunk is sent with session `s1`
and answered without URL under session `other`, and `UploadSlice` returns a
nil result, an empty session and `session corrupt`. -/
theorem C3_session_mismatch_without_URL_witness :
    ∃ run, scenarioFile.UploadSlice scenarioLocal corruptServer [] 512 []
        = some run ∧
      run.calls.length = 1 ∧ run.out = ⟨none, [], some sessionCorrupt⟩ := by
  obtain ⟨run, hrun, hrep, _, hcor, _⟩ :=
    C3_session_mismatch_without_URL scenarioFile scenarioLocal
      corruptServer [] 512 []
  have h1 : (scenarioFile.UploadSlice scenarioLocal corruptServer [] 512 []).map
      (fun r => r.calls.map (fun ex => ex.req.body.get (str "session"))) = some [str "s1"] := by
    decide!
  rw [hrun] at h1
  simp only [Option.map_some', Option.some.injEq] at h1
  obtain ⟨ex, hex, hs⟩ := singleton_of_map _ _ _ h1
  have hsplit : run.calls = [] ++ ex :: [] := by simp [hex]
  have hr : ex.reply = Except.ok (goOn 0 (str "other")) := hrep [] ex [] hsplit
  refine ⟨run, hrun, by simp [hex], ?_⟩
  exact (hcor [] ex [] (goOn 0 (str "other")) hsplit hr rfl (by rw [hs]; decide)).2

/-- C4, as stated, fails in two places. Its last part: with a start offset of
2500 beyond the 2000 bytes of the file the loop ends at once, at an offset that
is not the size and without any reply; and on `corruptServer` the loop ends
after the first chunk of 512 bytes, below the size, on a reply without URL.
Its chunk length: on a file of 3 GiB with a slice size of 2 GiB, where one read
transfers at most 1 GiB, the first chunk carries 1 GiB, not
`min(L, S - offset)`, which is 2 GiB. -/
theorem C4_counterexample_loop_end :
    scenarioContent.length = 2000 ∧
    (scenarioFile.UploadSlice scenarioLocal (neverDoneServer 2500) [] 512 []).map
        (fun run => (run.out, run.calls.length))
      = some (⟨none, str "s1", some GoError.ErrUnexpectedEOF⟩, 0) ∧
    (scenarioFile.UploadSlice scenarioLocal corruptServer [] 512 []).map
        (fun run => (run.out, run.calls.map (fun ex =>
          (ex.req.body.get (str "offset"), ex.req.len,
            ex.reply.toOption.map (fun p => p.URL)))))
      = some (⟨none, [], some sessionCorrupt⟩, [(str "0", 512, some [])]) ∧
    (∃ run ex post,
      scenarioFile.UploadSlice (regularFile bigContent fixtureMaxOffset fixtureMaxRead)
        (neverDoneServer 0) [] 2147483648 [] = some run ∧
      run.calls = ex :: post ∧ ex.req.body.get (str "offset") = str "0" ∧
      ex.req.len = 1073741824 ∧ bigContent.length = 3221225472 ∧
      min 2147483648 (3221225472 - 0) = 2147483648) := by
  refine ⟨by decide!, by decide!, by decide!, ?_⟩
  obtain ⟨run, hrun, hspec⟩ :=
    UploadSlice_run scenarioFile (regularFile bigContent fixtureMaxOffset fixtureMaxRead)
      (neverDoneServer 0) [] 2147483648 []
  have hlen : bigContent.length = 3221225472 := by rw [bigContent, List.length_replicate]
  have hR : 0 < fixtureMaxRead := by decide
  have h := regular_echo_run scenarioFile bigContent fixtureMaxOffset fixtureMaxRead
    (neverDoneServer 0) [] 2147483648 [] ⟨goOn 0 (str "s1"), 0⟩ run hR rfl rfl
    (regularFile_seek_ok _ _ _ _ (by decide) (by decide))
    (fun _ req => ⟨goOn 0 (req.body.get (str "session")), rfl, rfl, rfl⟩) hspec
  obtain ⟨_, _, hsent, _, hreqs⟩ := h
  have hs : (0 : Int) + sent run.calls = 3221225472 := by
    have := hsent (by
      show (0 : Int) ≤ (bigContent.length : Int)
      omega)
    rw [hlen] at this
    exact this
  match hc : run.calls with
  | [] =>
    rw [hc] at hs
    simp [sent] at hs
  | ex :: post =>
    have hch := regular_chunk scenarioFile bigContent fixtureMaxOffset fixtureMaxRead
      (neverDoneServer 0) _ _ _ [] ex (le_refl _)
      (effectiveSliceSize_pos ⟨goOn 0 (str "s1"), 0⟩ 2147483648) hR
      (hreqs [] ex post (by simp [hc]))
    have hL : (effectiveSliceSize ⟨goOn 0 (str "s1"), 0⟩ 2147483648).toNat = 2147483648 := by
      decide
    have hoff : (0 : Int) + (sent ([] : List Exchange) : Int) = 0 := by
      decide
    refine ⟨run, ex, post, hrun, hc, ?_, ?_, hlen, by decide⟩
    · rw [hch.2.1, hoff]
      decide
    · rw [hch.2.2.2.1, hL, hoff, hlen]
      decide

/-- C4, amended: on a regular file with content of `S` bytes, where one read
transfers at most `M > 0` bytes, whatever the server does, `UploadSlice`
returns; the slice size `L` read with is positive; the chunk request that
follows the chunk calls `pre` carries the offset `o0` plus the bytes of `pre`,
which is not negative, its content is the file bytes from that offset of
length `n = min(L, M, S - offset)`, which is `min(L, S - offset)` when
`L ≤ M`, `n` is positive, its `sha` is the SHA-1 of these bytes, and
`offset + n` does not exceed `S`; a reply with a URL is always the last call.
If moreover `L ≤ M`, the seek to `o0` succeeds, `o0 ≤ S`, the negotiation
reply has no URL and every chunk call succeeded with a reply that carries a
URL or echoes the session, then either the sent bytes reached `S` exactly, no
reply had a URL and the result is `io.ErrUnexpectedEOF` with the session, or
the last reply carries a URL and the result is that reply's. On the 2000-byte file with
slice size 512 there are four chunk calls at offsets 0, 512, 1024, 1536 of
512, 512, 512 and 464 bytes, and the URL of the fourth reply ends the upload
with an empty session. -/
theorem C4_chunk_offsets_exact_and_bounded (f : File) (content : List Byte)
    (maxOffset : Int) (maxRead : Nat) (srv : Server)
    (bizAttr : GoString) (sliceSize : Int) (session : GoString)
    (firstPart : uploadFirstPartResult) (hR : 0 < maxRead)
    (hfirst : srv.first (negotiationRequest f bizAttr sliceSize session content.length content)
      zeroFirstPart = Except.ok firstPart) :
    ∃ run, f.UploadSlice (regularFile content maxOffset maxRead) srv bizAttr sliceSize session
        = some run ∧
      0 < (effectiveSliceSize firstPart sliceSize).toNat ∧
      (∀ pre ex post, run.calls = pre ++ ex :: post →
        0 ≤ firstPart.Offset + sent pre ∧
        ex.req.body.get (str "offset") = formatInt (firstPart.Offset + sent pre) ∧
        ex.req.content = some ((content.drop (firstPart.Offset + sent pre).toNat).take
          (min (effectiveSliceSize firstPart sliceSize).toNat maxRead)) ∧
        ex.req.len = min (min (effectiveSliceSize firstPart sliceSize).toNat maxRead)
          (content.length - (firstPart.Offset + sent pre).toNat) ∧
        ((effectiveSliceSize firstPart sliceSize).toNat ≤ maxRead →
          ex.req.len = min (effectiveSliceSize firstPart sliceSize).toNat
            (content.length - (firstPart.Offset + sent pre).toNat)) ∧
        0 < ex.req.len ∧
        ex.req.body.get (str "sha") = sha1sum
          ((content.drop (firstPart.Offset + sent pre).toNat).take
            (min (effectiveSliceSize firstPart sliceSize).toNat maxRead)) ∧
        firstPart.Offset + sent pre + ex.req.len ≤ content.length) ∧
      (∀ pre ex post part, run.calls = pre ++ ex :: post → ex.reply = Except.ok part →
        part.URL ≠ [] → post = []) ∧
      ((effectiveSliceSize firstPart sliceSize).toNat ≤ maxRead →
        (regularFile content maxOffset maxRead).seek firstPart.Offset = none →
        firstPart.Offset ≤ content.length → firstPart.URL = [] →
        (∀ ex ∈ run.calls, ∃ part, ex.reply = Except.ok part ∧
          (part.URL ≠ [] ∨ part.Session = adoptedSession firstPart session)) →
        (firstPart.Offset + sent run.calls = content.length ∧
          run.out = ⟨none, adoptedSession firstPart session, some GoError.ErrUnexpectedEOF⟩ ∧
          ∀ ex ∈ run.calls, ex.continues (adoptedSession firstPart session)) ∨
        (∃ pre last part, run.calls = pre ++ [last] ∧ last.reply = Except.ok part ∧
          part.URL ≠ [] ∧ run.out = ⟨some part.toUploadResult, [], none⟩)) ∧
      (scenarioFile.UploadSlice scenarioLocal scenarioServer [] 512 []).map
          (fun run => (run.out, run.calls.map (fun ex =>
            (ex.req.body.get (str "offset"), ex.req.len))))
        = some (⟨some scenarioResult, [], none⟩,
            [(str "0", 512), (str "512", 512), (str "1024", 512), (str "1536", 464)]) := by
  obtain ⟨run, hrun, hspec⟩ :=
    UploadSlice_run f (regularFile content maxOffset maxRead) srv bizAttr sliceSize session
  have hL := effectiveSliceSize_pos firstPart sliceSize
  have hcases := regular_run f content maxOffset maxRead srv bizAttr sliceSize session
    firstPart run hfirst hspec
  refine ⟨run, hrun, hL, ?_, ?_, ?_, by decide!⟩
  · intro pre ex post hsplit
    rcases hcases with ⟨hc, _⟩ | ⟨hc, _⟩ | ⟨_, _, h0, _, hreqs, _⟩
    · exact (nil_ne_split hc hsplit).elim
    · exact (nil_ne_split hc hsplit).elim
    · exact regular_chunk f content maxOffset maxRead srv _ _ _ pre ex h0 hL hR
        (hreqs pre ex post hsplit)
  · intro pre ex post part hsplit hrep hu
    rcases hcases with ⟨hc, _⟩ | ⟨hc, _⟩ | ⟨_, _, _, hends, _⟩
    · exact (nil_ne_split hc hsplit).elim
    · exact (nil_ne_split hc hsplit).elim
    · exact (loopEnds_complete _ _ _ _ hends pre post ex hsplit part hrep hu).1
  · intro _ hseek hle hu hok
    rcases hcases with ⟨_, hu', _⟩ | ⟨_, _, hsk, _⟩ | ⟨_, _, h0, hends, hreqs, hreads, hexh⟩
    · exact absurd hu hu'
    · rw [hseek] at hsk
      exact Option.noConfusion hsk
    · rcases regular_loop_end f content maxOffset maxRead srv _ _ _ run.out run.calls
        run.reads h0 hL hR hends hreqs hreads hexh hok with ⟨heq, ho, hc⟩ | h
      · exact Or.inl ⟨heq hle, ho, hc⟩
      · exact Or.inr h

/-- C4, amended, on the 2000-byte file with slice size 512: the first chunk
call carries the offset 0 and 512 bytes. -/
theorem C4_chunk_offsets_exact_and_bounded_witness :
    ∃ run ex, scenarioFile.UploadSlice scenarioLocal scenarioServer [] 512 []
        = some run ∧
      run.calls.head? = some ex ∧ ex.req.body.get (str "offset") = str "0" ∧
      ex.req.len = 512 := by
  obtain ⟨run, hrun, _, hchunk, _⟩ :=
    C4_chunk_offsets_exact_and_bounded scenarioFile scenarioContent fixtureMaxOffset
      fixtureMaxRead scenarioServer [] 512 [] ⟨goOn 0 (str "s1"), 0⟩ (by decide) rfl
  have h1 : (scenarioFile.UploadSlice scenarioLocal scenarioServer [] 512
      []).map (fun r => r.calls.length) = some 4 := by
    decide!
  rw [scenarioLocal] at h1
  rw [hrun] at h1
  simp only [Option.map_some', Option.some.injEq] at h1
  match hc : run.calls, h1 with
  | ex :: post, _ =>
    have h := hchunk [] ex post (by simp [hc])
    refine ⟨run, ex, hrun, by simp [hc], ?_, ?_⟩
    · rw [h.2.1]
      decide
    · rw [h.2.2.2.2.1 (by decide)]
      decide!

/-- C5, as stated, fails: on a server whose negotiation reply succeeds without
URL and reports the start offset -1, or the start offset 2^62 beyond what the
file system lets a seek reach, and whose chunk replies would all succeed
without URL and echo the session, the seek fails and `UploadSlice` returns the
error of the seek, not `io.ErrUnexpectedEOF`, and sends no chunk. -/
theorem C5_counterexample_negative_offset :
    (scenarioFile.UploadSlice scenarioLocal (neverDoneServer (-1)) [] 512 []).map
        (fun run => (run.out, run.calls.length))
      = some (⟨none, str "s1", some EINVAL⟩, 0) ∧
    (scenarioFile.UploadSlice scenarioLocal (neverDoneServer 4611686018427387904) [] 512
        []).map (fun run => (run.out, run.calls.length))
      = some (⟨none, str "s1", some EINVAL⟩, 0) ∧
    EINVAL ≠ GoError.ErrUnexpectedEOF := by
  decide!

/-- C5, amended: on a regular file with content of `S` bytes and a server whose
negotiation reply succeeds without URL and whose chunk replies all succeed
without URL and echo the session sent, if the seek to the start offset of the
negotiation reply succeeds and the slice size `L` read with is at most the
`M` bytes one read transfers, `UploadSlice` returns a nil result, the error
`io.ErrUnexpectedEOF` and the last known session (the one of the negotiation
reply unless it is empty, else the caller's); every chunk call made was
answered so and carries `min(L, S - offset)` bytes; if the start offset is at
most `S`, the bytes sent reach `S` exactly, and if it is at least `S`, no
chunk is sent. -/
theorem C5_exhausted_file_gives_ErrUnexpectedEOF (f : File) (content : List Byte)
    (maxOffset : Int) (maxRead : Nat)
    (srv : Server) (bizAttr : GoString) (sliceSize : Int) (session : GoString)
    (firstPart : uploadFirstPartResult)
    (hfirst : srv.first (negotiationRequest f bizAttr sliceSize session content.length content)
      zeroFirstPart = Except.ok firstPart)
    (hu : firstPart.URL = [])
    (hseek : (regularFile content maxOffset maxRead).seek firstPart.Offset = none)
    (hslice : (effectiveSliceSize firstPart sliceSize).toNat ≤ maxRead)
    (hecho : ∀ k req, ∃ part, srv.part k req zeroPart = Except.ok part ∧ part.URL = [] ∧
      part.Session = req.body.get (str "session")) :
    ∃ run, f.UploadSlice (regularFile content maxOffset maxRead) srv bizAttr sliceSize session
        = some run ∧
      run.out = ⟨none, if firstPart.Session ≠ [] then firstPart.Session else session,
        some GoError.ErrUnexpectedEOF⟩ ∧
      (∀ ex ∈ run.calls, ex.continues (adoptedSession firstPart session)) ∧
      (∀ pre ex post, run.calls = pre ++ ex :: post →
        ex.req.len = min (effectiveSliceSize firstPart sliceSize).toNat
          (content.length - (firstPart.Offset + sent pre).toNat)) ∧
      (firstPart.Offset ≤ content.length →
        firstPart.Offset + sent run.calls = content.length) ∧
      ((content.length : Int) ≤ firstPart.Offset → run.calls = []) := by
  obtain ⟨run, hrun, hspec⟩ :=
    UploadSlice_run f (regularFile content maxOffset maxRead) srv bizAttr sliceSize session
  have hL := effectiveSliceSize_pos firstPart sliceSize
  have hR : 0 < maxRead := Nat.lt_of_lt_of_le hL hslice
  obtain ⟨ho, hcont, hsent, hnone, hreqs⟩ :=
    regular_echo_run f content maxOffset maxRead srv bizAttr sliceSize session firstPart run
      hR hfirst hu hseek hecho hspec
  refine ⟨run, hrun, ho, hcont, ?_, hsent, hnone⟩
  intro pre ex post hsplit
  exact (regular_chunk f content maxOffset maxRead srv _ _ _ pre ex
    (regularFile_seek content maxOffset maxRead _ hseek).1 hL hR
    (hreqs pre ex post hsplit)).2.2.2.2.1 hslice

/-- C5, amended, on the 2000-byte file with slice size 512 and a server that
never reports a URL: `UploadSlice` returns `io.ErrUnexpectedEOF` with the
session `s1` of the negotiation reply, after sending 2000 bytes. -/
theorem C5_exhausted_file_gives_ErrUnexpectedEOF_witness :
    ∃ run, scenarioFile.UploadSlice scenarioLocal (neverDoneServer 0) [] 512
        (str "s0") = some run ∧
      run.out = ⟨none, str "s1", some GoError.ErrUnexpectedEOF⟩ ∧
      (0 : Int) + sent run.calls = 2000 := by
  obtain ⟨run, hrun, hout, _, _, hsent, _⟩ :=
    C5_exhausted_file_gives_ErrUnexpectedEOF scenarioFile scenarioContent fixtureMaxOffset
      fixtureMaxRead (neverDoneServer 0)
      [] 512 (str "s0") ⟨goOn 0 (str "s1"), 0⟩ rfl rfl (by decide) (by decide)
      (fun _ req => ⟨goOn 0 (req.body.get (str "session")), rfl, rfl, rfl⟩)
  refine ⟨run, hrun, hout, ?_⟩
  have := hsent (by decide!)
  have hlen : scenarioContent.length = 2000 := by decide!
  rw [hlen] at this
  exact this

/-- C6, as stated, fails: on `downServer` the negotiation request is sent with
the caller's session `s0` and the call fails; `UploadSlice` returns the error
with an empty session, not with `s0`. -/
theorem C6_counterexample_negotiation_failure :
    (scenarioFile.UploadSlice scenarioLocal downServer [] 512 (str "s0")).map
        (fun run => (run.out, run.first.map (fun r => r.body.get (str "session")),
          run.calls.length))
      = some (⟨none, [], some (GoError.other 7)⟩, some (str "s0"), 0) ∧
    ([] : GoString) ≠ str "s0" := by
  decide!

/-- C6, amended: `UploadSlice` always returns; the negotiation request is sent
once open, stat and the hashing copy succeeded, and it carries the caller's
session. If the negotiation call fails, no chunk call is made and the result
is nil with that error and an empty session. Every chunk reply recorded is the
server's reply to the request recorded; a failing chunk call is the last call,
and the result is nil with that error and the session adopted after the
negotiation, which is the session that chunk request carried. -/
theorem C6_call_error_keeps_adopted_session (f : File) (fs : LocalFile) (srv : Server)
    (bizAttr : GoString) (sliceSize : Int) (session : GoString) :
    ∃ run, f.UploadSlice fs srv bizAttr sliceSize session = some run ∧
      (∀ size hashed, fs.openErr = none → fs.stat = Except.ok size →
        fs.copy = Except.ok hashed →
        run.first = some (negotiationRequest f bizAttr sliceSize session size hashed) ∧
        (negotiationRequest f bizAttr sliceSize session size hashed).body.get (str "session")
          = session) ∧
      (∀ req e, run.first = some req → srv.first req zeroFirstPart = Except.error e →
        run.calls = [] ∧ run.out = ⟨none, [], some e⟩) ∧
      (∀ req firstPart pre ex post, run.first = some req →
        srv.first req zeroFirstPart = Except.ok firstPart → run.calls = pre ++ ex :: post →
        ex.reply = srv.part pre.length ex.req zeroPart ∧
        ex.req.body.get (str "session") = adoptedSession firstPart session) ∧
      (∀ req firstPart pre ex post e, run.first = some req →
        srv.first req zeroFirstPart = Except.ok firstPart → run.calls = pre ++ ex :: post →
        ex.reply = Except.error e →
        post = [] ∧ run.out = ⟨none, adoptedSession firstPart session, some e⟩) := by
  obtain ⟨run, hrun, hspec⟩ := UploadSlice_run f fs srv bizAttr sliceSize session
  refine ⟨run, hrun, ?_, ?_, ?_, ?_⟩
  · intro size hashed ho hst hcp
    exact ⟨runSpec_first f fs srv bizAttr sliceSize session run hspec size hashed ho hst hcp,
      negotiationRequest_session f bizAttr sliceSize session size hashed⟩
  · intro req e hreq he
    exact (runSpec_negotiation f fs srv bizAttr sliceSize session run hspec req hreq).1 e he
  · intro req firstPart pre ex post hreq hfp hsplit
    rcases (runSpec_negotiation f fs srv bizAttr sliceSize session run hspec req hreq).2
      firstPart hfp with ⟨_, hc, _⟩ | ⟨_, _, _, hc, _⟩ | ⟨_, _, size, _, _, hreqs, _⟩
    · exact (nil_ne_split hc hsplit).elim
    · exact (nil_ne_split hc hsplit).elim
    · have h := hreqs pre ex post hsplit
      exact ⟨h.2.2.2.2.2.2.2.2, h.2.2.2.2.2.1⟩
  · intro req firstPart pre ex post e hreq hfp hsplit he
    rcases (runSpec_negotiation f fs srv bizAttr sliceSize session run hspec req hreq).2
      firstPart hfp with ⟨_, hc, _⟩ | ⟨_, _, _, hc, _⟩ | ⟨_, _, size, _, hends, _⟩
    · exact (nil_ne_split hc hsplit).elim
    · exact (nil_ne_split hc hsplit).elim
    · exact loopEnds_callError _ _ _ _ hends pre post ex hsplit e he

/-- C6, amended, on two servers: when the negotiation call fails the caller
gets the error and an empty session; when the first chunk call fails after the
server started session `s1`, the caller gets the error and `s1`, although it
had supplied `s0`. -/
theorem C6_call_error_keeps_adopted_session_witness :
    (∃ run, scenarioFile.UploadSlice scenarioLocal downServer [] 512 (str "s0")
        = some run ∧ run.out = ⟨none, [], some (GoError.other 7)⟩) ∧
    (∃ run, scenarioFile.UploadSlice scenarioLocal flakyServer [] 512 (str "s0")
        = some run ∧ run.out = ⟨none, str "s1", some (GoError.other 8)⟩) := by
  constructor
  · obtain ⟨run, hrun, hfirst, hneg, _⟩ :=
      C6_call_error_keeps_adopted_session scenarioFile scenarioLocal
        downServer [] 512 (str "s0")
    exact ⟨run, hrun, (hneg _ (GoError.other 7) (hfirst _ _ rfl rfl rfl).1 rfl).2⟩
  · obtain ⟨run, hrun, hfirst, _, hrep, hchunk⟩ :=
      C6_call_error_keeps_adopted_session scenarioFile scenarioLocal
        flakyServer [] 512 (str "s0")
    have h1 : (scenarioFile.UploadSlice scenarioLocal flakyServer [] 512
        (str "s0")).map (fun r => r.calls.map (fun _ => ())) = some [()] := by
      decide!
    rw [hrun] at h1
    simp only [Option.map_some', Option.some.injEq] at h1
    obtain ⟨ex, hex, _⟩ := singleton_of_map _ _ _ h1
    have hsplit : run.calls = [] ++ ex :: [] := by simp [hex]
    have hf := (hfirst _ _ rfl rfl rfl).1
    have hr : ex.reply = Except.error (GoError.other 8) :=
      (hrep _ ⟨goOn 0 (str "s1"), 0⟩ [] ex [] hf rfl hsplit).1
    exact ⟨run, hrun,
      (hchunk _ ⟨goOn 0 (str "s1"), 0⟩ [] ex [] (GoError.other 8) hf rfl hsplit hr).2⟩

/-- C7, as stated, fails: when the seek to the offset of the negotiation reply
fails, or the first chunk read fails, after the server started session `s1`,
`UploadSlice` returns the error with the session `s1`, not with an empty
session. -/
theorem C7_counterexample_seek_and_read_failure :
    (scenarioFile.UploadSlice (brokenSeekFile scenarioContent) scenarioServer [] 512 []).map
        (fun run => run.out) = some ⟨none, str "s1", some (GoError.other 5)⟩ ∧
    (scenarioFile.UploadSlice (brokenReadFile scenarioContent) scenarioServer [] 512 []).map
        (fun run => (run.out, run.reads))
      = some (⟨none, str "s1", some (GoError.other 6)⟩, [([], some (GoError.other 6))]) ∧
    str "s1" ≠ ([] : GoString) := by
  decide!

/-- C7, amended: `UploadSlice` always returns. A failure of open, of stat or
of the hashing copy gives a nil result, that error and an empty session, and
no call is made. A failure of the seek to the offset of the negotiation reply
gives a nil result, that error and the session adopted after the negotiation,
and no chunk call is made. Every read recorded is the result of `file.Read` at
the start offset plus the bytes of the chunks sent before it; a read that
fails with an error other than end-of-file is the last read, and the result is
nil with that error and the session adopted after the negotiation. -/
theorem C7_local_failure_sessions (f : File) (fs : LocalFile) (srv : Server)
    (bizAttr : GoString) (sliceSize : Int) (session : GoString) :
    ∃ run, f.UploadSlice fs srv bizAttr sliceSize session = some run ∧
      (∀ e, fs.openErr = some e →
        run.first = none ∧ run.calls = [] ∧ run.out = ⟨none, [], some e⟩) ∧
      (∀ e, fs.openErr = none → fs.stat = Except.error e →
        run.first = none ∧ run.calls = [] ∧ run.out = ⟨none, [], some e⟩) ∧
      (∀ size e, fs.openErr = none → fs.stat = Except.ok size → fs.copy = Except.error e →
        run.first = none ∧ run.calls = [] ∧ run.out = ⟨none, [], some e⟩) ∧
      (∀ size hashed, fs.openErr = none → fs.stat = Except.ok size →
        fs.copy = Except.ok hashed →
        run.first = some (negotiationRequest f bizAttr sliceSize session size hashed)) ∧
      (∀ req firstPart e, run.first = some req → srv.first req zeroFirstPart = Except.ok firstPart →
        firstPart.URL = [] → fs.seek firstPart.Offset = some e →
        run.calls = [] ∧ run.out = ⟨none, adoptedSession firstPart session, some e⟩) ∧
      (∀ req firstPart pre rd post, run.first = some req →
        srv.first req zeroFirstPart = Except.ok firstPart → run.reads = pre ++ rd :: post →
        rd = fileRead (fs.read pre.length
          (firstPart.Offset + sent (run.calls.take pre.length))
          (effectiveSliceSize firstPart sliceSize).toNat)
          (effectiveSliceSize firstPart sliceSize).toNat) ∧
      (∀ req firstPart pre rd post e, run.first = some req →
        srv.first req zeroFirstPart = Except.ok firstPart → run.reads = pre ++ rd :: post →
        rd.2 = some e → e ≠ GoError.EOF →
        post = [] ∧ run.out = ⟨none, adoptedSession firstPart session, some e⟩) := by
  obtain ⟨run, hrun, hspec⟩ := UploadSlice_run f fs srv bizAttr sliceSize session
  have hnoreads : ∀ req firstPart, run.first = some req → srv.first req zeroFirstPart = Except.ok firstPart →
      ∀ pre rd post, run.reads = pre ++ rd :: post →
      loopEnds (adoptedSession firstPart session) run.out run.calls run.reads ∧
      ∃ size, readSpec fs size (effectiveSliceSize firstPart sliceSize).toNat firstPart.Offset
        run.calls pre rd := by
    intro req firstPart hreq hfp pre rd post hsplit
    have hr : ∀ {P : Prop}, run.reads = [] → P := fun h =>
      (nil_ne_split h hsplit).elim
    rcases hspec with ⟨_, _, _, hfirst, _⟩ | ⟨size, hashed, _, hst, _, hfirst, hrest⟩
    · rw [hfirst] at hreq; exact Option.noConfusion hreq
    · rw [hfirst] at hreq
      injection hreq with hreq
      subst hreq
      rcases hrest with ⟨_, hf, _⟩ | ⟨fp, hf, hrest⟩
      · rw [hfp] at hf; exact Except.noConfusion hf
      · rw [hfp] at hf
        injection hf with hf
        subst hf
        rcases hrest with ⟨_, _, _, hr'⟩ | ⟨_, _, _, _, _, hr'⟩ | ⟨_, _, hends, _, hreads, _⟩
        · exact hr hr'
        · exact hr hr'
        · exact ⟨hends, size, hreads pre rd post hsplit⟩
  refine ⟨run, hrun, ?_, ?_, ?_, ?_, ?_, ?_, ?_⟩
  · intro e h
    exact runSpec_prelude f fs srv bizAttr sliceSize session run hspec e (Or.inl h)
  · intro e h0 h
    exact runSpec_prelude f fs srv bizAttr sliceSize session run hspec e (Or.inr (Or.inl ⟨h0, h⟩))
  · intro size e h0 h1 h
    exact runSpec_prelude f fs srv bizAttr sliceSize session run hspec e
      (Or.inr (Or.inr ⟨size, h0, h1, h⟩))
  · intro size hashed ho hst hcp
    exact runSpec_first f fs srv bizAttr sliceSize session run hspec size hashed ho hst hcp
  · intro req firstPart e hreq hfp hu hsk
    rcases (runSpec_negotiation f fs srv bizAttr sliceSize session run hspec req hreq).2
      firstPart hfp with ⟨hu', _⟩ | ⟨_, e', hsk', hc, ho⟩ | ⟨_, hsk', _⟩
    · exact absurd hu hu'
    · rw [hsk] at hsk'
      injection hsk' with hsk'
      subst hsk'
      exact ⟨hc, ho⟩
    · rw [hsk] at hsk'; exact Option.noConfusion hsk'
  · intro req firstPart pre rd post hreq hfp hsplit
    obtain ⟨_, size, hrs⟩ := hnoreads req firstPart hreq hfp pre rd post hsplit
    exact hrs.2
  · intro req firstPart pre rd post e hreq hfp hsplit he hne
    exact loopEnds_readError _ _ _ _ (hnoreads req firstPart hreq hfp pre rd post hsplit).1
      pre post rd hsplit e he hne

/-- C7, amended, on three local files: a file that cannot be opened gives the
error and an empty session without any call; a failing seek and a failing
first read, after the server started session `s1`, give the error and `s1`. -/
theorem C7_local_failure_sessions_witness :
    (∃ run, scenarioFile.UploadSlice missingFile scenarioServer [] 512 (str "s0") = some run ∧
      run.first = none ∧ run.calls = [] ∧ run.out = ⟨none, [], some (GoError.other 2)⟩) ∧
    (∃ run, scenarioFile.UploadSlice (brokenSeekFile scenarioContent) scenarioServer [] 512
        (str "s0") = some run ∧
      run.calls = [] ∧ run.out = ⟨none, str "s1", some (GoError.other 5)⟩) ∧
    (∃ run, scenarioFile.UploadSlice (brokenReadFile scenarioContent) scenarioServer [] 512
        (str "s0") = some run ∧
      run.out = ⟨none, str "s1", some (GoError.other 6)⟩) := by
  refine ⟨?_, ?_, ?_⟩
  · obtain ⟨run, hrun, hopen, _⟩ :=
      C7_local_failure_sessions scenarioFile missingFile scenarioServer [] 512 (str "s0")
    exact ⟨run, hrun, hopen _ rfl⟩
  · obtain ⟨run, hrun, _, _, _, hfirst, hseek, _⟩ :=
      C7_local_failure_sessions scenarioFile (brokenSeekFile scenarioContent) scenarioServer
        [] 512 (str "s0")
    exact ⟨run, hrun,
      hseek _ ⟨goOn 0 (str "s1"), 0⟩ (GoError.other 5) (hfirst _ _ rfl rfl rfl) rfl rfl rfl⟩
  · obtain ⟨run, hrun, _, _, _, hfirst, _, _, hread⟩ :=
      C7_local_failure_sessions scenarioFile (brokenReadFile scenarioContent) scenarioServer
        [] 512 (str "s0")
    have h1 : (scenarioFile.UploadSlice (brokenReadFile scenarioContent) scenarioServer [] 512
        (str "s0")).map (fun r => r.reads) = some [([], some (GoError.other 6))] := by
      decide!
    rw [hrun] at h1
    simp only [Option.map_some', Option.some.injEq] at h1
    have hsplit : run.reads = [] ++ ([], some (GoError.other 6)) :: [] := by simp [h1]
    exact ⟨run, hrun,
      (hread _ ⟨goOn 0 (str "s1"), 0⟩ [] _ [] (GoError.other 6) (hfirst _ _ rfl rfl rfl) rfl
        hsplit rfl (by decide)).2⟩

/-- C8: for every name, `EscapePath name` contains none of the substrings
`%2F`, `%2f`, `%7E`, `%7e`, it neither begins nor ends with `/`, and trimming
`/` from it leaves it unchanged. -/
theorem C8_EscapePath_no_encoded_separator (name : GoString) :
    ¬ (str "%2F" <:+: EscapePath name) ∧ ¬ (str "%2f" <:+: EscapePath name) ∧
    ¬ (str "%7E" <:+: EscapePath name) ∧ ¬ (str "%7e" <:+: EscapePath name) ∧
    ¬ (str "/" <+: EscapePath name) ∧ ¬ (str "/" <:+ EscapePath name) ∧
    Trim (EscapePath name) (str "/") = EscapePath name := by
  have hin := not_infix_escapeTokens (Trim name [chr '/'])
  rw [← EscapePath_eq] at hin
  have hh := EscapePath_head name
  have hl := EscapePath_last name
  refine ⟨?_, ?_, ?_, ?_, ?_, ?_, ?_⟩
  · exact hin (str "%2F", str "/") (by simp [replacer])
  · exact hin (str "%2f", str "/") (by simp [replacer])
  · exact hin (str "%7E", str "~") (by simp [replacer])
  · exact hin (str "%7e", str "~") (by simp [replacer])
  · rw [str_slash]
    exact fun h => hh (head_eq_of_starts h)
  · rw [str_slash]
    exact fun h => hl (last_eq_of_ends h)
  · rw [str_slash]
    exact Trim_eq_self _ _ hh hl

/-- C9: `Dir.Name` is empty when `EscapePath` of the directory name is empty
(in particular for the empty name) and is `EscapePath` of the name followed by
`/` otherwise; a non-empty `Dir.Name` ends with `/`, does not end with `//`
and does not begin with `/`. -/
theorem C9_Dir_Name_trailing_separator (d : Dir) (b : Bucket) :
    d.Name = (if EscapePath d.name = [] then [] else EscapePath d.name ++ str "/") ∧
    Dir.Name ⟨b, []⟩ = [] ∧
    (d.Name = [] ∨
      (str "/" <:+ d.Name ∧ ¬ (str "//" <:+ d.Name) ∧ ¬ (str "/" <+: d.Name))) := by
  have hh := EscapePath_head d.name
  have hl := EscapePath_last d.name
  refine ⟨?_, ?_, ?_⟩
  · by_cases h : EscapePath d.name = [] <;> simp [Dir.Name, h]
  · simp [Dir.Name, EscapePath_nil]
  · by_cases h : EscapePath d.name = []
    · left
      simp [Dir.Name, h]
    · right
      have hn : d.Name = EscapePath d.name ++ [chr '/'] := by simp [Dir.Name, h, str_slash]
      rw [hn, str_slash]
      refine ⟨List.suffix_append _ _, ?_, ?_⟩
      · have h2 : str "//" = [chr '/'] ++ [chr '/'] := by decide
        rw [h2]
        intro hs
        obtain ⟨u, hu⟩ := hs
        rw [← List.append_assoc, List.append_left_inj] at hu
        exact hl (last_eq_of_ends ⟨u, hu⟩)
      · intro hp
        apply hh
        cases hE : EscapePath d.name with
        | nil => exact absurd hE h
        | cons a r =>
          rw [hE] at hp
          simp only [List.cons_append, List.cons_prefix_cons] at hp
          simp [hp.1]

/-- C10: `Bucket.sign` at issue time `t` and nonce `r` equals `COS.sign` with
expiry `t + seconds` (as an `int64` sum, which is the exact sum when it is in
range), issue time `t`, nonce `r` and an empty resource path when
`seconds > 0`, and equals `COS.sign` with expiry 0 and resource path
`/<appID>/<bucket>/<path>` when `seconds ≤ 0`; `Dir.Sign` and `File.Sign` are
`Bucket.sign` on `Dir.Name` and `File.FullName`. At the time and nonce of
`TestSign`, `Dir.Sign` of the root directory for thirty days is the test's
`more` token and `File.Sign` of `tencent_test.jpg` for zero seconds is its
`once` token. -/
theorem C10_Bucket_sign_multi_and_single_use
    (b : Bucket) (p : GoString) (t r seconds : Int) (d : Dir) (f : File) :
    (0 < seconds →
      b.sign t r p seconds = b.cos.sign b.name (wrapInt64 (t + seconds)) t r []) ∧
    (0 < seconds → -9223372036854775808 ≤ t + seconds → t + seconds < 9223372036854775808 →
      b.sign t r p seconds = b.cos.sign b.name (t + seconds) t r []) ∧
    (seconds ≤ 0 →
      b.sign t r p seconds
        = b.cos.sign b.name 0 t r
            (str "/" ++ b.cos.appID ++ str "/" ++ b.name ++ str "/" ++ p)) ∧
    d.Sign t r seconds = d.bucket.sign t r d.Name seconds ∧
    f.Sign t r seconds = f.dir.bucket.sign t r f.FullName seconds ∧
    Dir.Sign ⟨testSignBucket, []⟩ 1436077115 11162 2592000 = testSignMore ∧
    File.Sign ⟨⟨testSignBucket, []⟩, str "tencent_test.jpg"⟩ 1436077115 11162 0
      = testSignOnce := by
  refine ⟨?_, ?_, ?_, rfl, rfl, by decide!, by decide!⟩
  · intro h
    simp [Bucket.sign, h]
  · intro h h1 h2
    simp [Bucket.sign, h, wrapInt64_of_range _ h1 h2]
  · intro h
    have h' : ¬ (0 < seconds) := not_lt.mpr h
    simp [Bucket.sign, h', getResourcePath_eq]

/-- C10, at the fixtures of `TestSign`: thirty days of validity from
1436077115 give the expiry 1438669115 and an empty path; zero seconds on the
file `tencent_test.jpg` of the root directory give expiry 0 and the path
`/200001/newbucket/tencent_test.jpg`. -/
theorem C10_Bucket_sign_multi_and_single_use_witness :
    (testSignBucket.sign 1436077115 11162 (str "tencent_test.jpg") 2592000
      = testSignCOS.sign (str "newbucket") (1436077115 + 2592000) 1436077115 11162 []) ∧
    (testSignBucket.sign 1436077115 11162 (str "tencent_test.jpg") 0
      = testSignCOS.sign (str "newbucket") 0 1436077115 11162
          (str "/" ++ str "200001" ++ str "/" ++ str "newbucket" ++ str "/"
            ++ str "tencent_test.jpg")) :=
  ⟨(C10_Bucket_sign_multi_and_single_use testSignBucket (str "tencent_test.jpg")
      1436077115 11162 2592000 ⟨testSignBucket, []⟩
      ⟨⟨testSignBucket, []⟩, str "tencent_test.jpg"⟩).2.1
      (by decide) (by decide) (by decide),
   (C10_Bucket_sign_multi_and_single_use testSignBucket (str "tencent_test.jpg")
      1436077115 11162 0 ⟨testSignBucket, []⟩
      ⟨⟨testSignBucket, []⟩, str "tencent_test.jpg"⟩).2.2.1 (by decide)⟩

end Cos
